import Mathlib

/-!
# Verification of the Code Context Graph (CCG) builders

Shallow embedding of the CCG-related parts of `py_module/code_analyzer.py`
and `py_module/ccg_builder.py`.

Modelling conventions:
* A filesystem path is its list of components (`FPath`), already resolved
  and absolute, as produced by `Path.resolve()`; `os.sep` is `/`.
* The filesystem is presented as the raw enumeration of file paths that
  `Path.rglob` would yield under the analysis root (in arbitrary order),
  together with a parse oracle `parse : FPath → Option (List PNode)`
  standing for `read_text` + `ast.parse`; `none` models any exception
  (unreadable file or syntax error).
* The Python `ast` fragment relevant to these modules is modelled by
  `PExpr`/`PNode`: `Name`, `Attribute`, `Call`, other expressions,
  `FunctionDef`, `AsyncFunctionDef`, `ClassDef`, expression statements and
  other statements.  Docstrings are not modelled (no verified claim
  mentions them); `extract_top_level_defs_py` therefore returns
  `(type, name)` pairs instead of `{type, name, doc}` dicts.
* Python `set`s of strings are modelled as insertion-ordered duplicate-free
  lists (`addSet`), Python `dict`s as insertion-ordered association lists.
-/

/-- A resolved absolute filesystem path, as its list of components. -/
abbrev FPath := List String

/-- `str(p)` for an absolute path. -/
def pathStr (p : FPath) : String := "/" ++ String.intercalate "/" p

/-! ### Kernel-reducible string utilities

Python string comparison is lexicographic by code point; `sorted` on paths
and on node-name sets uses it.  These helpers re-implement the comparisons
and the string operations `split`/`endswith`/`in` by structural recursion
over character lists so that concrete runs of the model reduce inside the
kernel. -/

/-- Lexicographic (by code point) `≤` on character lists. -/
def clLeB : List Char → List Char → Bool
  | [], _ => true
  | _ :: _, [] => false
  | a :: as, b :: bs =>
    if a.toNat < b.toNat then true
    else if b.toNat < a.toNat then false
    else clLeB as bs

/-- Python's `s1 <= s2` on strings. -/
def strLeB (a b : String) : Bool := clLeB a.toList b.toList

def strLe (a b : String) : Prop := strLeB a b = true

instance : DecidableRel strLe :=
  fun a b => inferInstanceAs (Decidable (strLeB a b = true))

/-- Lexicographic `≤` on paths (component-wise; `sorted` on `Path`
objects orders by the rendered path string, which agrees with the
component-wise order on real path components). -/
def fpLeB : List String → List String → Bool
  | [], _ => true
  | _ :: _, [] => false
  | a :: as, b :: bs =>
    if strLeB a b then (if strLeB b a then fpLeB as bs else true) else false

def fpLe (a b : FPath) : Prop := fpLeB a b = true

instance : DecidableRel fpLe :=
  fun a b => inferInstanceAs (Decidable (fpLeB a b = true))

def sortPaths (l : List FPath) : List FPath := List.insertionSort fpLe l

def sortStrings (l : List String) : List String := List.insertionSort strLe l

def leadsWithChars : List Char → List Char → Bool
  | [], _ => true
  | _ :: _, [] => false
  | a :: as, b :: bs => a == b && leadsWithChars as bs

/-- Python `s.endswith(suf)`. -/
def endsWithStr (s suf : String) : Bool :=
  leadsWithChars suf.toList.reverse s.toList.reverse

/-- If `sep` is an initial run of `cs`, the remainder. -/
def dropMatch : List Char → List Char → Option (List Char)
  | [], cs => some cs
  | _ :: _, [] => none
  | p :: ps, c :: cs => if c = p then dropMatch ps cs else none

/-- Fuel-driven splitting of a character list at every occurrence of
`sep` (`fuel ≥ cs.length` makes the fuel case unreachable). -/
def splitCharsAux (sep : List Char) : Nat → List Char → List (List Char)
  | _, [] => [[]]
  | 0, cs => [cs]
  | Nat.succ f, c :: cs =>
    match dropMatch sep (c :: cs) with
    | some rest => [] :: splitCharsAux sep f rest
    | none =>
      match splitCharsAux sep f cs with
      | [] => [[c]]
      | h :: t => (c :: h) :: t

/-- Python `s.split(sep)` for a nonempty separator. -/
def splitOnStr (s sep : String) : List String :=
  if sep = "" then [s]
  else (splitCharsAux sep.toList s.toList.length s.toList).map (fun cs => String.mk cs)

/-! ## The modelled Python AST fragment -/

inductive PExpr where
  | pname (id : String)
  | pattr (value : PExpr) (attrName : String)
  | pcall (func : PExpr) (args : List PExpr)
  | pconst (repr : String)

inductive PNode where
  | funcDef (name : String) (body : List PNode)
  | asyncFuncDef (name : String) (body : List PNode)
  | classDef (name : String) (bases : List PExpr) (body : List PNode)
  | exprStmt (e : PExpr)
  | passStmt

/-! ## `code_analyzer.find_code_files` -/

/-- `find_code_files`: for each extension collect the `rglob` matches
(filename ends with the extension), then `sorted({p.resolve() for p in files})`.
`fsFiles` is the raw filesystem enumeration of (resolved) file paths under
the root; a non-existing root yields the empty enumeration (Python `rglob`
yields nothing for a missing directory rather than raising). -/
def find_code_files (fsFiles : List FPath) (exts : List String) : List FPath :=
  let files := exts.flatMap (fun ext => fsFiles.filter (fun p => endsWithStr (p.getLastD "") ext))
  sortPaths files.dedup

/-- `_module_name_from_path`: the path relative to the repo root when the
root is an ancestor (separators rendered with `/`, as `str(rel)` with
`os.sep` replaced), otherwise the file's base name `Path(path).name`
(extension included). -/
def leadsWith : List String → List String → Bool
  | [], _ => true
  | _ :: _, [] => false
  | a :: as, b :: bs => a == b && leadsWith as bs

def _module_name_from_path (repo_root : FPath) (p : FPath) : String :=
  if leadsWith repo_root p then String.intercalate "/" (p.drop repo_root.length)
  else p.getLastD ""

/-! ## `code_analyzer._CCGVisitor` -/

/-- The mutable state of `_CCGVisitor` (the `assigns` field is omitted:
our AST fragment has no `Assign` statements and `analyze_ccg` never reads
`assigns`). -/
structure VState where
  module : String
  funcs : List String
  classes : List String
  calls : List (String × String)
  instantiates : List (String × String)
  class_bases : List (String × List String)
  current_function : Option String
  current_class : Option String
deriving DecidableEq

/-- Python's `set.add` on an insertion-ordered duplicate-free list. -/
def addSet (l : List String) (x : String) : List String :=
  if x ∈ l then l else l ++ [x]

/-- Python's `dict.__setitem__` on an insertion-ordered association list. -/
def dictSet (l : List (String × List String)) (k : String) (v : List String) :
    List (String × List String) :=
  if l.any (fun p => p.1 = k) then l.map (fun p => if p.1 = k then (k, v) else p)
  else l ++ [(k, v)]

/-- `visit_Call`'s name extraction: a `Name`'s id, an `Attribute`'s final
attribute, otherwise `None`. -/
def callName : PExpr → Option String
  | .pname id => some id
  | .pattr _ a => some a
  | _ => none

/-- `name[0].isupper()` (False on the empty string, which cannot occur for
real identifiers but keeps the function total). -/
def headUpper (s : String) : Bool :=
  match s.toList with
  | [] => false
  | c :: _ => c.isUpper

/-- The dotted-name parts collected by the `while isinstance(cur, ast.Attribute)`
loops of `_CCGVisitor.visit_ClassDef` and `ccg_builder._get_attr_name`:
attributes outside-in, plus the innermost `Name`'s id when there is one. -/
def attrParts : PExpr → List String
  | .pname id => [id]
  | .pattr v a => attrParts v ++ [a]
  | _ => []

mutual
/-- `ast.unparse`, on the modelled expression fragment. -/
def unparseE : PExpr → String
  | .pname id => id
  | .pattr v a => unparseE v ++ "." ++ a
  | .pcall f args => unparseE f ++ "(" ++ String.intercalate ", " (unparseList args) ++ ")"
  | .pconst r => r
termination_by structural e => e

def unparseList : List PExpr → List String
  | [] => []
  | e :: r => unparseE e :: unparseList r
termination_by structural l => l
end

/-- The base-name computation of `_CCGVisitor.visit_ClassDef`: a `Name`'s
id, the reversed-joined dotted chain for an `Attribute`, `ast.unparse`
otherwise. -/
def baseNameCA (b : PExpr) : String :=
  match b with
  | .pname id => id
  | .pattr _ _ => String.intercalate "." (attrParts b)
  | _ => unparseE b

mutual
/-- `_CCGVisitor` on an expression (`visit_Call` plus `generic_visit`
recursion into subexpressions). -/
def visitExpr (e : PExpr) (s : VState) : VState :=
  match e with
  | .pname _ => s
  | .pconst _ => s
  | .pattr v _ => visitExpr v s
  | .pcall f args =>
    let site := s.current_function.getD (s.current_class.getD (s.module ++ "::<module>"))
    let s1 := match callName f with
      | none => s
      | some n =>
        let s' := { s with calls := s.calls ++ [(site, n)] }
        if headUpper n then { s' with instantiates := s'.instantiates ++ [(site, n)] } else s'
    visitExprs args (visitExpr f s1)
termination_by structural e

def visitExprs (l : List PExpr) (s : VState) : VState :=
  match l with
  | [] => s
  | e :: r => visitExprs r (visitExpr e s)
termination_by structural l
end

mutual
/-- `_CCGVisitor` on a statement (`visit_FunctionDef`,
`visit_AsyncFunctionDef` — which delegates to `visit_FunctionDef` —,
`visit_ClassDef`, and `generic_visit` recursion elsewhere). -/
def visitNode (n : PNode) (s : VState) : VState :=
  match n with
  | .funcDef name body =>
    let qual := s.module ++ "::" ++ name
    let s1 := { s with funcs := addSet s.funcs qual }
    let prev := s1.current_function
    let s2 := visitNodes body { s1 with current_function := some qual }
    { s2 with current_function := prev }
  | .asyncFuncDef name body =>
    let qual := s.module ++ "::" ++ name
    let s1 := { s with funcs := addSet s.funcs qual }
    let prev := s1.current_function
    let s2 := visitNodes body { s1 with current_function := some qual }
    { s2 with current_function := prev }
  | .classDef name bases body =>
    let qual := s.module ++ "::" ++ name
    let s1 := { s with classes := addSet s.classes qual,
                       class_bases := dictSet s.class_bases qual (bases.map baseNameCA) }
    let prev := s1.current_class
    let s2 := visitNodes body (visitExprs bases { s1 with current_class := some qual })
    { s2 with current_class := prev }
  | .exprStmt e => visitExpr e s
  | .passStmt => s
termination_by structural n

def visitNodes (l : List PNode) (s : VState) : VState :=
  match l with
  | [] => s
  | n :: r => visitNodes r (visitNode n s)
termination_by structural l
end

def initState (module : String) : VState :=
  ⟨module, [], [], [], [], [], none, none⟩

/-- `v = _CCGVisitor(module); v.visit(tree)`. -/
def runVisitor (module : String) (tree : List PNode) : VState :=
  visitNodes tree (initState module)

/-! ## `code_analyzer.analyze_ccg` -/

/-- The value part of an entry of the `nodes` dict. -/
structure NodeInfo where
  type : String
  name : Option String := none
  qualname : Option String := none
  module : Option String := none
  file : Option String := none
deriving DecidableEq

/-- The `nodes` dict of `analyze_ccg` (insertion-ordered). -/
abbrev NodeMap := List (String × NodeInfo)

def keys (ns : NodeMap) : List String := ns.map Prod.fst

/-- `nodes.setdefault(k, v)`. -/
def setdefault (ns : NodeMap) (k : String) (v : NodeInfo) : NodeMap :=
  if k ∈ keys ns then ns else ns ++ [(k, v)]

structure Edge where
  fromId : String
  toId : String
  type : String
  label : String
deriving DecidableEq

structure CCG where
  nodes : NodeMap
  edges : List Edge
  files_analyzed : Nat
deriving DecidableEq

/-- First pass of `analyze_ccg`: parse each file (skipping failures),
run `_CCGVisitor` with the derived module name. -/
def ccgVisitors (repo_root : FPath) (parse : FPath → Option (List PNode))
    (py_files : List FPath) : List (FPath × VState) :=
  py_files.filterMap (fun p =>
    (parse p).map (fun tree => (p, runVisitor (_module_name_from_path repo_root p) tree)))

/-- The `nodes.setdefault(f"mod:{module}", ...)` calls of the first loop. -/
def moduleNodes : List (FPath × VState) → NodeMap → NodeMap
  | [], ns => ns
  | (p, v) :: r, ns =>
    moduleNodes r (setdefault ns ("mod:" ++ v.module)
      { type := "module", name := some v.module, file := some (pathStr p) })

/-- `fn.split("::")[-1]`. -/
def lastSeg (s : String) : String := (splitOnStr s "::").getLastD ""

/-- One of the two inner loops of the second pass (`for fn in v.funcs` with
`pre = "fn:", typ = "function"`; `for cl in v.classes` with
`pre = "class:", typ = "class"`). -/
def addDefs (pre typ module : String) : List String → NodeMap → List Edge → NodeMap × List Edge
  | [], ns, es => (ns, es)
  | q :: r, ns, es =>
    let ns' := setdefault ns (pre ++ q)
      { type := typ, name := some (lastSeg q), qualname := some q, module := some module }
    addDefs pre typ module r ns'
      (es ++ [⟨"mod:" ++ module, pre ++ q, "defines", "defines"⟩])

/-- Second pass of `analyze_ccg`: function/class nodes and `defines` edges. -/
def defineStage : List (FPath × VState) → NodeMap → List Edge → NodeMap × List Edge
  | [], ns, es => (ns, es)
  | (_, v) :: r, ns, es =>
    let st1 := addDefs "fn:" "function" v.module v.funcs ns es
    let st2 := addDefs "class:" "class" v.module v.classes st1.1 st1.2
    defineStage r st2.1 st2.2

/-- Inner loop of the third pass: `for b in bases`. -/
def addBases (cl : String) : List String → NodeMap → List Edge → NodeMap × List Edge
  | [], ns, es => (ns, es)
  | b :: r, ns, es =>
    let ns' := setdefault ns ("base:" ++ b) { type := "base", name := some b }
    addBases cl r ns' (es ++ [⟨"class:" ++ cl, "base:" ++ b, "inherits", "inherits"⟩])

def addClassBases : List (String × List String) → NodeMap → List Edge → NodeMap × List Edge
  | [], ns, es => (ns, es)
  | (cl, bs) :: r, ns, es =>
    let st := addBases cl bs ns es
    addClassBases r st.1 st.2

/-- Third pass of `analyze_ccg`: base nodes and `inherits` edges (note the
direction: from the class to its base). -/
def inheritStage : List (FPath × VState) → NodeMap → List Edge → NodeMap × List Edge
  | [], ns, es => (ns, es)
  | (_, v) :: r, ns, es =>
    let st := addClassBases v.class_bases ns es
    inheritStage r st.1 st.2

/-- The `name_to_node` buckets built at the start of each fourth-pass
iteration: node ids whose (truthy) `name` or `qualname` equals the key,
in node insertion order. -/
def nameToNode (ns : NodeMap) (key : String) : List String :=
  ns.flatMap (fun p =>
    (if p.2.name = some key ∧ key ≠ "" then [p.1] else []) ++
    (if p.2.qualname = some key ∧ key ≠ "" then [p.1] else []))

/-- The `caller_nid` computation of the fourth pass. -/
def callerNid (ns : NodeMap) (module site : String) : String :=
  if ("fn:" ++ site) ∈ keys ns then "fn:" ++ site
  else if ("class:" ++ site) ∈ keys ns then "class:" ++ site
  else "mod:" ++ module

/-- `for caller_site, callee_name in v.calls` of the fourth pass. -/
def processCalls (module : String) (snap : String → List String) :
    List (String × String) → NodeMap → List Edge → NodeMap × List Edge
  | [], ns, es => (ns, es)
  | (site, callee) :: r, ns, es =>
    let caller := callerNid ns module site
    match snap callee with
    | [] =>
      let t := "fn:unresolved::" ++ callee
      let ns' := setdefault ns t { type := "unresolved", name := some callee }
      processCalls module snap r ns' (es ++ [⟨caller, t, "calls", "calls"⟩])
    | t :: _ =>
      processCalls module snap r ns (es ++ [⟨caller, t, "calls", "calls"⟩])

/-- `for site, cls in v.instantiates` of the fourth pass. -/
def processInsts (module : String) (snap : String → List String) :
    List (String × String) → NodeMap → List Edge → NodeMap × List Edge
  | [], ns, es => (ns, es)
  | (site, cls) :: r, ns, es =>
    let caller := callerNid ns module site
    match snap cls with
    | [] =>
      let t := "class:unresolved::" ++ cls
      let ns' := setdefault ns t { type := "unresolved_class", name := some cls }
      processInsts module snap r ns' (es ++ [⟨caller, t, "instantiates", "instantiates"⟩])
    | t :: _ =>
      processInsts module snap r ns (es ++ [⟨caller, t, "instantiates", "instantiates"⟩])

/-- Fourth pass of `analyze_ccg`: `calls` and `instantiates` edges; the
`name_to_node` snapshot is rebuilt once per visitor. -/
def callStage : List (FPath × VState) → NodeMap → List Edge → NodeMap × List Edge
  | [], ns, es => (ns, es)
  | (_, v) :: r, ns, es =>
    let snap := nameToNode ns
    let st1 := processCalls v.module snap v.calls ns es
    let st2 := processInsts v.module snap v.instantiates st1.1 st1.2
    callStage r st2.1 st2.2

/-- `analyze_ccg(repo_root)`: the full pipeline over the filesystem
enumeration `fsFiles` and the parse oracle. -/
def analyze_ccg (repo_root : FPath) (parse : FPath → Option (List PNode))
    (fsFiles : List FPath) : CCG :=
  let py_files := find_code_files fsFiles [".py"]
  let vs := ccgVisitors repo_root parse py_files
  let ns0 := moduleNodes vs []
  let st1 := defineStage vs ns0 []
  let st2 := inheritStage vs st1.1 st1.2
  let st3 := callStage vs st2.1 st2.2
  ⟨st3.1, st3.2, py_files.length⟩

/-! ## `code_analyzer.find_callers` and `extract_top_level_defs_py` -/

/-- Python `needle in hay` on strings. -/
def strContains (hay needle : String) : Bool :=
  needle = "" || (splitOnStr hay needle).length > 1

/-- `ccg["nodes"].get(nid)`. -/
def lookupNode (ns : NodeMap) (k : String) : Option NodeInfo :=
  (ns.find? (fun p => p.1 == k)).map (·.2)

/-- The `target_ids` computation of `find_callers`: name/qualname matches,
falling back to substring matches over the node ids. -/
def findTargetIds (g : CCG) (target : String) : List String :=
  let tids := g.nodes.filterMap (fun p =>
    if p.2.name = some target ∨ p.2.qualname = some target then some p.1 else none)
  if tids.isEmpty then
    g.nodes.filterMap (fun p => if strContains p.1 target then some p.1 else none)
  else tids

def findCallersAux (ns : NodeMap) (tids : List String) :
    List Edge → List (String × Option NodeInfo) → List (String × Option NodeInfo)
  | [], cs => cs
  | e :: r, cs =>
    if e.type = "calls" ∧ e.toId ∈ tids then
      findCallersAux ns tids r (cs ++ [(e.fromId, lookupNode ns e.fromId)])
    else findCallersAux ns tids r cs

/-- `find_callers(ccg, target_name)`: one `{node_id, info}` entry per
matching `calls` edge, in edge order. -/
def find_callers (g : CCG) (target : String) : List (String × Option NodeInfo) :=
  findCallersAux g.nodes (findTargetIds g target) g.edges []

/-- The top-level extraction loop of `extract_top_level_defs_py`
(only `ast.FunctionDef` and `ast.ClassDef` are matched; in Python,
`ast.AsyncFunctionDef` is not an instance of `ast.FunctionDef`). -/
def extractDefs : List PNode → List (String × String)
  | [] => []
  | .funcDef name _ :: r => ("function", name) :: extractDefs r
  | .classDef name _ _ :: r => ("class", name) :: extractDefs r
  | _ :: r => extractDefs r

/-- `extract_top_level_defs_py(path)` (docstrings omitted, see header). -/
def extract_top_level_defs_py (parse : FPath → Option (List PNode)) (p : FPath) :
    List (String × String) :=
  if endsWithStr (p.getLastD "") ".py" then
    match parse p with
    | none => []
    | some tree => extractDefs tree
  else []

/-! ## `ccg_builder` -/

def IGNORE_DIRS : List String := ["env", ".venv", ".git", "tmp_clones", "venv", "__pycache__"]

/-- `_iter_py_files` on a directory root: the `rglob("*.py")` results with
any path containing an ignored component skipped.  (The root-is-a-file
shortcut of the Python function is not modelled; claims concern the
directory traversal.) -/
def _iter_py_files (files : List FPath) : List FPath :=
  files.filter (fun p =>
    endsWithStr (p.getLastD "") ".py" && !(p.any (fun part => IGNORE_DIRS.contains part)))

/-- `_qualname(module, name)`. -/
def _qualname (module name : String) : String :=
  if module ≠ "" then module ++ "." ++ name else name

/-- `_get_attr_name`: dotted name for `Attribute`/`Name`, else `None`. -/
def _get_attr_name : PExpr → Option String
  | .pname id => some id
  | .pattr v a => some (String.intercalate "." (attrParts (.pattr v a)))
  | _ => none

/-- `_get_call_name`. -/
def _get_call_name : PExpr → Option String
  | .pname id => some id
  | .pattr v a => _get_attr_name (.pattr v a)
  | _ => none

/-- `Path.with_suffix("")` on a file name: drop from the last dot when that
dot is neither the first nor the last character. -/
def withSuffixEmpty (name : String) : String :=
  let cs := name.toList
  match ((cs.enum.filter (fun q => q.2 = '.')).getLast?.map Prod.fst) with
  | some i => if 0 < i ∧ i < cs.length - 1 then String.mk (cs.take i) else name
  | none => name

/-- `relative_to(repo_root).with_suffix("").parts`: strip the extension of
the last component. -/
def stripLastSuffix : List String → List String
  | [] => []
  | [a] => [withSuffixEmpty a]
  | a :: r => a :: stripLastSuffix r

/-- The module-name derivation of `build_ccg`: dotted relative path with
the suffix stripped, else `f_resolved.stem`. -/
def bModuleName (repo_root : FPath) (p : FPath) : String :=
  if leadsWith repo_root p then
    String.intercalate "." (stripLastSuffix (p.drop repo_root.length))
  else withSuffixEmpty (p.getLastD "")

structure BEdge where
  src : String
  tgt : String
  type : String
deriving DecidableEq

structure BGraph where
  nodes : List String
  edges : List BEdge
deriving DecidableEq

/-- The base-name extraction of the top-level `ClassDef` handling in
`build_ccg` (`ast.Name` / `ast.Attribute`, else no name). -/
def bBaseName : PExpr → Option String
  | .pname id => some id
  | .pattr v a => _get_attr_name (.pattr v a)
  | _ => none

/-- The base-edge inner loop of the top-level `ClassDef` handling in
`build_ccg` (`if base_name:` models Python truthiness). -/
def bBaseEdges (q : String) : List PExpr → List String → List BEdge → List String × List BEdge
  | [], ns, es => (ns, es)
  | b :: r, ns, es =>
    match bBaseName b with
    | some bn =>
      if bn ≠ "" then bBaseEdges q r (addSet ns bn) (es ++ [⟨bn, q, "inherit"⟩])
      else bBaseEdges q r ns es
    | none => bBaseEdges q r ns es

/-- The `for node in tree.body` loop of `build_ccg`: top-level functions
and classes become nodes; class bases become nodes and `inherit` edges. -/
def bTopLevel (module : String) : List PNode → List String → List BEdge → List String × List BEdge
  | [], ns, es => (ns, es)
  | n :: r, ns, es =>
    match n with
    | .funcDef name _ => bTopLevel module r (addSet ns (_qualname module name)) es
    | .classDef name bases _ =>
      let q := _qualname module name
      let st := bBaseEdges q bases (addSet ns q) es
      bTopLevel module r st.1 st.2
    | _ => bTopLevel module r ns es

/-- The mutable state of `build_ccg`'s `CallVisitor` together with the
enclosing `nodes`/`edges` accumulators it mutates. -/
structure BState where
  nodes : List String
  edges : List BEdge
  current_fn : Option String
deriving DecidableEq

mutual
/-- `CallVisitor` on an expression (`visit_Call` plus `generic_visit`). -/
def bVisitExpr (module : String) (e : PExpr) (s : BState) : BState :=
  match e with
  | .pname _ => s
  | .pconst _ => s
  | .pattr v _ => bVisitExpr module v s
  | .pcall f args =>
    let s1 := match _get_call_name f with
      | none => s
      | some tgt =>
        let s' := { s with nodes := addSet s.nodes tgt }
        match s'.current_fn with
        | some fn => { s' with edges := s'.edges ++ [⟨fn, tgt, "call"⟩] }
        | none => s'
    bVisitExprs module args (bVisitExpr module f s1)
termination_by structural e

def bVisitExprs (module : String) (l : List PExpr) (s : BState) : BState :=
  match l with
  | [] => s
  | e :: r => bVisitExprs module r (bVisitExpr module e s)
termination_by structural l
end

mutual
/-- `CallVisitor` on a statement.  `visit_FunctionDef` resets
`current_fn` to `None` afterwards (not to the previous value);
`AsyncFunctionDef` has no handler, so only `generic_visit` runs. -/
def bVisitNode (module : String) (n : PNode) (s : BState) : BState :=
  match n with
  | .funcDef name body =>
    let q := _qualname module name
    let s1 : BState := ⟨addSet s.nodes q, s.edges, some q⟩
    let s2 := bVisitNodes module body s1
    { s2 with current_fn := none }
  | .asyncFuncDef _ body => bVisitNodes module body s
  | .classDef name bases body =>
    let prev := s.current_fn
    let s1 : BState := { s with current_fn := some (_qualname module name) }
    let s2 := bVisitNodes module body (bVisitExprs module bases s1)
    { s2 with current_fn := prev }
  | .exprStmt e => bVisitExpr module e s
  | .passStmt => s
termination_by structural n

def bVisitNodes (module : String) (l : List PNode) (s : BState) : BState :=
  match l with
  | [] => s
  | n :: r => bVisitNodes module r (bVisitNode module n s)
termination_by structural l
end

/-- One iteration of `build_ccg`'s file loop (parse failures skipped). -/
def bProcessFile (repo_root : FPath) (parse : FPath → Option (List PNode)) (p : FPath)
    (ns : List String) (es : List BEdge) : List String × List BEdge :=
  match parse p with
  | none => (ns, es)
  | some tree =>
    let module := bModuleName repo_root p
    let st := bTopLevel module tree ns es
    let st2 := bVisitNodes module tree ⟨st.1, st.2, none⟩
    (st2.nodes, st2.edges)

def bFiles (repo_root : FPath) (parse : FPath → Option (List PNode)) :
    List FPath → List String → List BEdge → List String × List BEdge
  | [], ns, es => (ns, es)
  | p :: r, ns, es =>
    let st := bProcessFile repo_root parse p ns es
    bFiles repo_root parse r st.1 st.2

/-- `build_ccg(path)`: nodes are returned as `sorted(nodes)`. -/
def build_ccg (repo_root : FPath) (parse : FPath → Option (List PNode))
    (filesUnderRoot : List FPath) : BGraph :=
  let files := _iter_py_files filesUnderRoot
  let st := bFiles repo_root parse files [] []
  ⟨sortStrings st.1, st.2⟩

/-- The accumulation loop of `query_callers` (`if src and src not in out`). -/
def queryCallersAux (target : String) : List BEdge → List String → List String
  | [], out => out
  | e :: r, out =>
    if e.type ≠ "call" then queryCallersAux target r out
    else if (splitOnStr e.tgt ".").getLastD "" = target ∨ e.tgt = target then
      (if e.src ≠ "" ∧ e.src ∉ out then queryCallersAux target r (out ++ [e.src])
       else queryCallersAux target r out)
    else queryCallersAux target r out

/-- `query_callers(graph, target)`. -/
def query_callers (g : BGraph) (target : String) : List String :=
  queryCallersAux target g.edges []



/-! ## Concrete scenario inputs (used by counterexamples and witnesses) -/

/-- A root `/r` holding one file `child.py` containing `class Child(Base): pass`. -/
def exChildParse : FPath → Option (List PNode) := fun p =>
  if p = ["r", "child.py"] then some [PNode.classDef "Child" [PExpr.pname "Base"] []] else none

def exChildGraph : CCG := analyze_ccg ["r"] exChildParse [["r", "child.py"]]

/-- A root `/r` holding one file `m.py` with `def foo`, and `def caller`
whose body calls `foo()` twice. -/
def exCallsParse : FPath → Option (List PNode) := fun p =>
  if p = ["r", "m.py"] then some [PNode.funcDef "foo" [],
    PNode.funcDef "caller" [PNode.exprStmt (PExpr.pcall (PExpr.pname "foo") []),
                            PNode.exprStmt (PExpr.pcall (PExpr.pname "foo") [])]] else none

def exCallsGraph : CCG := analyze_ccg ["r"] exCallsParse [["r", "m.py"]]

def exCallsBGraph : BGraph := build_ccg ["w"] exCallsParse [["r", "m.py"]]

/-- A root `/r` holding one file `m.py` with `class Model: pass` and
`def use_model` whose body evaluates `Model()`. -/
def exModelParse : FPath → Option (List PNode) := fun p =>
  if p = ["r", "m.py"] then some [PNode.classDef "Model" [] [],
    PNode.funcDef "use_model" [PNode.exprStmt (PExpr.pcall (PExpr.pname "Model") [])]] else none

def exModelGraph : CCG := analyze_ccg ["r"] exModelParse [["r", "m.py"]]

/-- A module body with a top-level `async def fetch` and a plain `def plain`. -/
def exAsyncTree : List PNode := [PNode.asyncFuncDef "fetch" [], PNode.funcDef "plain" []]

def exAsyncParse : FPath → Option (List PNode) := fun p =>
  if p = ["r", "a.py"] then some exAsyncTree else none

/-- A root `/r` with a good file and a file that fails to parse. -/
def exBadParse : FPath → Option (List PNode) := fun p =>
  if p = ["r", "good.py"] then some [PNode.funcDef "ok" []] else none


/-! ## Proof-support definitions -/

/-- Node entries only accumulate. -/
def NLe (a b : NodeMap) : Prop := ∀ p ∈ a, p ∈ b

/-- Edges only accumulate. -/
def ELe (a b : List Edge) : Prop := ∀ e ∈ a, e ∈ b

/-- Every edge endpoint is a node id. -/
def edgesOk (ns : NodeMap) (es : List Edge) : Prop :=
  ∀ e ∈ es, e.fromId ∈ keys ns ∧ e.toId ∈ keys ns

/-- The components of the visitor state that only ever grow. -/
structure VLe (s t : VState) : Prop where
  module : t.module = s.module
  funcs : ∀ x ∈ s.funcs, x ∈ t.funcs
  classes : ∀ x ∈ s.classes, x ∈ t.classes
  calls : ∀ x ∈ s.calls, x ∈ t.calls
  instantiates : ∀ x ∈ s.instantiates, x ∈ t.instantiates

/-- Invariants the visitor maintains: every recorded class definition is a
recorded class, and every recorded call with a capitalized target is also a
recorded instantiation. -/
def VInv (s : VState) : Prop :=
  (∀ p ∈ s.class_bases, p.1 ∈ s.classes) ∧
  (∀ p ∈ s.calls, headUpper p.2 = true → p ∈ s.instantiates)

/-- The target chosen for a `calls` edge: first `name_to_node` candidate,
else the synthesized unresolved-function placeholder. -/
def resolveCallT (snap : String → List String) (callee : String) : String :=
  match snap callee with
  | [] => "fn:unresolved::" ++ callee
  | t :: _ => t

/-- The target chosen for an `instantiates` edge: first `name_to_node`
candidate, else the synthesized unresolved-class placeholder. -/
def resolveInstT (snap : String → List String) (cls : String) : String :=
  match snap cls with
  | [] => "class:unresolved::" ++ cls
  | t :: _ => t

/-- The node/edge state of `analyze_ccg` after the first three passes
(module nodes, definition nodes/edges, base nodes/`inherits` edges), i.e.
the state in which the fourth pass starts. -/
def ccgPre (root : FPath) (parse : FPath → Option (List PNode))
    (fs : List FPath) : NodeMap × List Edge :=
  let vs := ccgVisitors root parse (find_code_files fs [".py"])
  let ns0 := moduleNodes vs []
  let st1 := defineStage vs ns0 []
  inheritStage vs st1.1 st1.2

/-- The node/edge state of `analyze_ccg` after all four passes. -/
def ccgState (root : FPath) (parse : FPath → Option (List PNode))
    (fs : List FPath) : NodeMap × List Edge :=
  let vs := ccgVisitors root parse (find_code_files fs [".py"])
  let ns0 := moduleNodes vs []
  let st1 := defineStage vs ns0 []
  let st2 := inheritStage vs st1.1 st1.2
  callStage vs st2.1 st2.2

/-- String-set entries only accumulate (builder `nodes`). -/
def SLe (a b : List String) : Prop := ∀ x ∈ a, x ∈ b

/-- Builder edges only accumulate. -/
def BELe (a b : List BEdge) : Prop := ∀ e ∈ a, e ∈ b

/-! ## Order properties of the sort comparators -/

theorem clLeB_cons (a b : Char) (as bs : List Char) :
    clLeB (a :: as) (b :: bs) = true ↔
      a.toNat < b.toNat ∨ (a.toNat = b.toNat ∧ clLeB as bs = true) := by
  simp only [clLeB]
  by_cases h₁ : a.toNat < b.toNat
  · simp [h₁]
  · by_cases h₂ : b.toNat < a.toNat
    · rw [if_neg h₁, if_pos h₂]
      constructor
      · intro h; exact absurd h (by simp)
      · intro h; rcases h with h | ⟨h, _⟩ <;> omega
    · have h₃ : a.toNat = b.toNat := by omega
      simp [h₁, h₂, h₃]

theorem clLeB_refl : ∀ a : List Char, clLeB a a = true
  | [] => rfl
  | a :: as => by
    rw [clLeB_cons]
    exact Or.inr ⟨rfl, clLeB_refl as⟩

theorem clLeB_total : ∀ a b : List Char, clLeB a b = true ∨ clLeB b a = true
  | [], _ => Or.inl rfl
  | _ :: _, [] => Or.inr rfl
  | a :: as, b :: bs => by
    rw [clLeB_cons, clLeB_cons]
    rcases Nat.lt_trichotomy a.toNat b.toNat with h | h | h
    · exact Or.inl (Or.inl h)
    · rcases clLeB_total as bs with ih | ih
      · exact Or.inl (Or.inr ⟨h, ih⟩)
      · exact Or.inr (Or.inr ⟨h.symm, ih⟩)
    · exact Or.inr (Or.inl h)

theorem clLeB_trans : ∀ a b c : List Char,
    clLeB a b = true → clLeB b c = true → clLeB a c = true
  | [], _, _, _, _ => rfl
  | _ :: _, [], _, h, _ => by simp [clLeB] at h
  | _ :: _, _ :: _, [], _, h => by simp [clLeB] at h
  | a :: as, b :: bs, c :: cs, h₁, h₂ => by
    rw [clLeB_cons] at h₁ h₂ ⊢
    rcases h₁ with h₁ | ⟨h₁, r₁⟩
    · rcases h₂ with h₂ | ⟨h₂, _⟩
      · exact Or.inl (by omega)
      · exact Or.inl (by omega)
    · rcases h₂ with h₂ | ⟨h₂, r₂⟩
      · exact Or.inl (by omega)
      · exact Or.inr ⟨by omega, clLeB_trans as bs cs r₁ r₂⟩

theorem clLeB_antisymm : ∀ a b : List Char,
    clLeB a b = true → clLeB b a = true → a = b
  | [], [], _, _ => rfl
  | [], _ :: _, _, h => by simp [clLeB] at h
  | _ :: _, [], h, _ => by simp [clLeB] at h
  | a :: as, b :: bs, h₁, h₂ => by
    rw [clLeB_cons] at h₁ h₂
    rcases h₁ with h₁ | ⟨h₁, r₁⟩
    · rcases h₂ with h₂ | ⟨h₂, _⟩ <;> omega
    · rcases h₂ with h₂ | ⟨h₂, r₂⟩
      · omega
      · have ha : a = b := Char.eq_of_val_eq (UInt32.toNat.inj h₁)
        rw [ha, clLeB_antisymm as bs r₁ r₂]

theorem strLe_refl (a : String) : strLe a a := clLeB_refl _

theorem strLe_total (a b : String) : strLe a b ∨ strLe b a := clLeB_total _ _

theorem strLe_trans {a b c : String} : strLe a b → strLe b c → strLe a c :=
  clLeB_trans _ _ _

theorem strLe_antisymm {a b : String} (h₁ : strLe a b) (h₂ : strLe b a) : a = b := by
  have h := clLeB_antisymm _ _ h₁ h₂
  exact String.ext (by simpa [String.toList] using h)

instance : IsTotal String strLe := ⟨strLe_total⟩

instance : IsTrans String strLe := ⟨fun _ _ _ => strLe_trans⟩

instance : IsAntisymm String strLe := ⟨fun _ _ => strLe_antisymm⟩

theorem fpLe_cons (a b : String) (as bs : List String) :
    fpLe (a :: as) (b :: bs) ↔
      (strLe a b ∧ ¬ strLe b a) ∨ (strLe a b ∧ strLe b a ∧ fpLe as bs) := by
  simp only [fpLe, fpLeB, strLe]
  by_cases h₁ : strLeB a b = true
  · by_cases h₂ : strLeB b a = true
    · simp [h₁, h₂]
    · simp [h₁, h₂]
  · simp [h₁]

theorem fpLe_refl : ∀ a : FPath, fpLe a a
  | [] => rfl
  | a :: as => (fpLe_cons a a as as).mpr (Or.inr ⟨strLe_refl a, strLe_refl a, fpLe_refl as⟩)

theorem fpLe_total : ∀ a b : FPath, fpLe a b ∨ fpLe b a
  | [], _ => Or.inl rfl
  | _ :: _, [] => Or.inr rfl
  | a :: as, b :: bs => by
    rw [fpLe_cons, fpLe_cons]
    by_cases h₁ : strLe a b
    · by_cases h₂ : strLe b a
      · rcases fpLe_total as bs with ih | ih
        · exact Or.inl (Or.inr ⟨h₁, h₂, ih⟩)
        · exact Or.inr (Or.inr ⟨h₂, h₁, ih⟩)
      · exact Or.inl (Or.inl ⟨h₁, h₂⟩)
    · rcases strLe_total a b with h | h
      · exact absurd h h₁
      · exact Or.inr (Or.inl ⟨h, h₁⟩)

theorem fpLe_trans : ∀ a b c : FPath, fpLe a b → fpLe b c → fpLe a c
  | [], _, _, _, _ => rfl
  | _ :: _, [], _, h, _ => by simp [fpLe, fpLeB] at h
  | _ :: _, _ :: _, [], _, h => by simp [fpLe, fpLeB] at h
  | a :: as, b :: bs, c :: cs, h₁, h₂ => by
    rw [fpLe_cons] at h₁ h₂ ⊢
    rcases h₁ with ⟨hab, hnba⟩ | ⟨hab, hba, r₁⟩
    · rcases h₂ with ⟨hbc, hncb⟩ | ⟨hbc, hcb, _⟩
      · refine Or.inl ⟨strLe_trans hab hbc, fun hca => hnba (strLe_trans hbc hca)⟩
      · have hcb' : b = c := strLe_antisymm hbc hcb
        subst hcb'
        exact Or.inl ⟨hab, hnba⟩
    · have hab' : a = b := strLe_antisymm hab hba
      subst hab'
      rcases h₂ with ⟨hbc, hncb⟩ | ⟨hbc, hcb, r₂⟩
      · exact Or.inl ⟨hbc, hncb⟩
      · exact Or.inr ⟨hbc, hcb, fpLe_trans as bs cs r₁ r₂⟩

theorem fpLe_antisymm : ∀ a b : FPath, fpLe a b → fpLe b a → a = b
  | [], [], _, _ => rfl
  | [], _ :: _, _, h => by simp [fpLe, fpLeB] at h
  | _ :: _, [], h, _ => by simp [fpLe, fpLeB] at h
  | a :: as, b :: bs, h₁, h₂ => by
    rw [fpLe_cons] at h₁ h₂
    rcases h₁ with ⟨hab, hnba⟩ | ⟨hab, hba, r₁⟩
    · rcases h₂ with ⟨hba, _⟩ | ⟨hba, _, _⟩ <;> exact absurd hba hnba
    · rcases h₂ with ⟨_, hnab⟩ | ⟨_, _, r₂⟩
      · exact absurd hab hnab
      · rw [strLe_antisymm hab hba, fpLe_antisymm as bs r₁ r₂]

instance : IsTotal FPath fpLe := ⟨fpLe_total⟩

instance : IsTrans FPath fpLe := ⟨fun a b c => fpLe_trans a b c⟩

instance : IsAntisymm FPath fpLe := ⟨fun a b => fpLe_antisymm a b⟩

/-! ## Small container lemmas -/

theorem mem_addSet_self (l : List String) (x : String) : x ∈ addSet l x := by
  unfold addSet
  split
  · assumption
  · exact List.mem_append_right _ (List.mem_singleton.mpr rfl)

theorem mem_addSet_of_mem {l : List String} {y : String} (x : String) (h : y ∈ l) :
    y ∈ addSet l x := by
  unfold addSet
  split
  · exact h
  · exact List.mem_append_left _ h

theorem mem_of_mem_addSet {l : List String} {x y : String} (h : y ∈ addSet l x) :
    y = x ∨ y ∈ l := by
  unfold addSet at h
  split at h
  · exact Or.inr h
  · rcases List.mem_append.mp h with h | h
    · exact Or.inr h
    · exact Or.inl (List.mem_singleton.mp h)

theorem pair_mem_setdefault {ns : NodeMap} {p : String × NodeInfo} (k : String) (v : NodeInfo)
    (h : p ∈ ns) : p ∈ setdefault ns k v := by
  unfold setdefault
  split
  · exact h
  · exact List.mem_append_left _ h

theorem key_mem_setdefault_self (ns : NodeMap) (k : String) (v : NodeInfo) :
    k ∈ keys (setdefault ns k v) := by
  unfold setdefault
  split
  · assumption
  · simp [keys]

theorem key_mem_setdefault_of_mem {ns : NodeMap} {k' : String} (k : String) (v : NodeInfo)
    (h : k' ∈ keys ns) : k' ∈ keys (setdefault ns k v) := by
  unfold setdefault
  split
  · exact h
  · simp only [keys, List.map_append]
    exact List.mem_append_left _ h

theorem mem_setdefault_cases {ns : NodeMap} {p : String × NodeInfo} {k : String} {v : NodeInfo}
    (h : p ∈ setdefault ns k v) : p ∈ ns ∨ p = (k, v) := by
  unfold setdefault at h
  split at h
  · exact Or.inl h
  · rcases List.mem_append.mp h with h | h
    · exact Or.inl h
    · exact Or.inr (List.mem_singleton.mp h)

theorem mem_dictSet_cases {l : List (String × List String)} {p : String × List String}
    {k : String} {v : List String} (h : p ∈ dictSet l k v) : p.1 = k ∨ p ∈ l := by
  unfold dictSet at h
  split at h
  · rcases List.mem_map.mp h with ⟨q, hq, hqe⟩
    by_cases hk : q.1 = k
    · rw [if_pos hk] at hqe
      exact Or.inl (by rw [← hqe])
    · rw [if_neg hk] at hqe
      exact Or.inr (hqe ▸ hq)
  · rcases List.mem_append.mp h with h | h
    · exact Or.inr h
    · exact Or.inl (by rw [List.mem_singleton.mp h])

/-! ## Monotonicity and invariants of `_CCGVisitor` -/


theorem VLe_refl (s : VState) : VLe s s :=
  ⟨rfl, fun _ h => h, fun _ h => h, fun _ h => h, fun _ h => h⟩

theorem VLe_comp {a b c : VState} (h₁ : VLe a b) (h₂ : VLe b c) : VLe a c :=
  ⟨h₂.module.trans h₁.module,
   fun x h => h₂.funcs x (h₁.funcs x h),
   fun x h => h₂.classes x (h₁.classes x h),
   fun x h => h₂.calls x (h₁.calls x h),
   fun x h => h₂.instantiates x (h₁.instantiates x h)⟩

theorem VLe_visitCall (s : VState) (site : String) (n : Option String) :
    VLe s (match n with
           | none => s
           | some n =>
             let s' := { s with calls := s.calls ++ [(site, n)] }
             if headUpper n then { s' with instantiates := s'.instantiates ++ [(site, n)] }
             else s') := by
  cases n with
  | none => exact VLe_refl s
  | some n =>
    by_cases hu : headUpper n = true
    · simp only [hu, if_true]
      exact ⟨rfl, fun x h => h, fun x h => h,
        fun x h => List.mem_append_left _ h, fun x h => List.mem_append_left _ h⟩
    · simp only [Bool.not_eq_true] at hu
      simp only [hu, Bool.false_eq_true, if_false]
      exact ⟨rfl, fun x h => h, fun x h => h,
        fun x h => List.mem_append_left _ h, fun x h => h⟩

mutual
theorem visitExpr_le (e : PExpr) (s : VState) : VLe s (visitExpr e s) := by
  cases e with
  | pname id => rw [visitExpr]; exact VLe_refl s
  | pconst r => rw [visitExpr]; exact VLe_refl s
  | pattr v a => rw [visitExpr]; exact visitExpr_le v s
  | pcall f args =>
    rw [visitExpr]
    exact VLe_comp (VLe_comp (VLe_visitCall s _ (callName f)) (visitExpr_le f _)) (visitExprs_le args _)
termination_by structural e

theorem visitExprs_le (l : List PExpr) (s : VState) : VLe s (visitExprs l s) := by
  cases l with
  | nil => rw [visitExprs]; exact VLe_refl s
  | cons e r =>
    rw [visitExprs]
    exact VLe_comp (visitExpr_le e s) (visitExprs_le r _)
termination_by structural l
end

theorem VLe_setCF (s : VState) (cf : Option String) :
    VLe s { s with current_function := cf } :=
  ⟨rfl, fun _ h => h, fun _ h => h, fun _ h => h, fun _ h => h⟩

theorem VLe_setCC (s : VState) (cc : Option String) :
    VLe s { s with current_class := cc } :=
  ⟨rfl, fun _ h => h, fun _ h => h, fun _ h => h, fun _ h => h⟩

theorem VLe_addFuncs (s : VState) (q : String) :
    VLe s { s with funcs := addSet s.funcs q } :=
  ⟨rfl, fun _ h => mem_addSet_of_mem _ h, fun _ h => h, fun _ h => h, fun _ h => h⟩

theorem VLe_addClasses (s : VState) (q : String) (cb : List (String × List String)) :
    VLe s { s with classes := addSet s.classes q, class_bases := cb } :=
  ⟨rfl, fun _ h => h, fun _ h => mem_addSet_of_mem _ h, fun _ h => h, fun _ h => h⟩

mutual
theorem visitNode_le (n : PNode) (s : VState) : VLe s (visitNode n s) := by
  cases n with
  | funcDef name body =>
    rw [visitNode]
    exact VLe_comp (VLe_comp (VLe_comp (VLe_addFuncs s _) (VLe_setCF _ _))
      (visitNodes_le body _)) (VLe_setCF _ _)
  | asyncFuncDef name body =>
    rw [visitNode]
    exact VLe_comp (VLe_comp (VLe_comp (VLe_addFuncs s _) (VLe_setCF _ _))
      (visitNodes_le body _)) (VLe_setCF _ _)
  | classDef name bases body =>
    rw [visitNode]
    exact VLe_comp (VLe_comp (VLe_comp (VLe_comp (VLe_addClasses s _ _) (VLe_setCC _ _))
      (visitExprs_le bases _)) (visitNodes_le body _)) (VLe_setCC _ _)
  | exprStmt e =>
    rw [visitNode]; exact visitExpr_le e s
  | passStmt =>
    rw [visitNode]; exact VLe_refl s
termination_by structural n

theorem visitNodes_le (l : List PNode) (s : VState) : VLe s (visitNodes l s) := by
  cases l with
  | nil => rw [visitNodes]; exact VLe_refl s
  | cons n r =>
    rw [visitNodes]
    exact VLe_comp (visitNode_le n s) (visitNodes_le r _)
termination_by structural l
end


theorem VInv_visitCall (s : VState) (site : String) (n : Option String) (h : VInv s) :
    VInv (match n with
          | none => s
          | some n =>
            let s' := { s with calls := s.calls ++ [(site, n)] }
            if headUpper n then { s' with instantiates := s'.instantiates ++ [(site, n)] }
            else s') := by
  cases n with
  | none => exact h
  | some n =>
    by_cases hu : headUpper n = true
    · simp only [hu, if_true]
      refine ⟨fun p hp => h.1 p hp, fun p hp hup => ?_⟩
      rcases List.mem_append.mp hp with hp | hp
      · exact List.mem_append_left _ (h.2 p hp hup)
      · exact List.mem_append_right _ hp
    · simp only [Bool.not_eq_true] at hu
      simp only [hu, Bool.false_eq_true, if_false]
      refine ⟨fun p hp => h.1 p hp, fun p hp hup => ?_⟩
      rcases List.mem_append.mp hp with hp | hp
      · exact h.2 p hp hup
      · rw [List.mem_singleton.mp hp] at hup
        rw [hup] at hu
        cases hu

mutual
theorem visitExpr_inv (e : PExpr) (s : VState) (h : VInv s) : VInv (visitExpr e s) := by
  cases e with
  | pname id => rw [visitExpr]; exact h
  | pconst r => rw [visitExpr]; exact h
  | pattr v a => rw [visitExpr]; exact visitExpr_inv v s h
  | pcall f args =>
    rw [visitExpr]
    exact visitExprs_inv args _ (visitExpr_inv f _ (VInv_visitCall s _ (callName f) h))
termination_by structural e

theorem visitExprs_inv (l : List PExpr) (s : VState) (h : VInv s) : VInv (visitExprs l s) := by
  cases l with
  | nil => rw [visitExprs]; exact h
  | cons e r =>
    rw [visitExprs]
    exact visitExprs_inv r _ (visitExpr_inv e s h)
termination_by structural l
end

mutual
theorem visitNode_inv (n : PNode) (s : VState) (h : VInv s) : VInv (visitNode n s) := by
  cases n with
  | funcDef name body =>
    rw [visitNode]
    exact visitNodes_inv body _ h
  | asyncFuncDef name body =>
    rw [visitNode]
    exact visitNodes_inv body _ h
  | classDef name bases body =>
    rw [visitNode]
    refine visitNodes_inv body _ (visitExprs_inv bases _ ⟨fun p hp => ?_, fun p hp => h.2 p hp⟩)
    rcases mem_dictSet_cases hp with hp | hp
    · rw [hp]; exact mem_addSet_self _ _
    · exact mem_addSet_of_mem _ (h.1 p hp)
  | exprStmt e =>
    rw [visitNode]; exact visitExpr_inv e s h
  | passStmt =>
    rw [visitNode]; exact h
termination_by structural n

theorem visitNodes_inv (l : List PNode) (s : VState) (h : VInv s) : VInv (visitNodes l s) := by
  cases l with
  | nil => rw [visitNodes]; exact h
  | cons n r =>
    rw [visitNodes]
    exact visitNodes_inv r _ (visitNode_inv n s h)
termination_by structural l
end

theorem runVisitor_inv (module : String) (tree : List PNode) : VInv (runVisitor module tree) :=
  visitNodes_inv tree _ ⟨fun p hp => absurd hp (List.not_mem_nil p), fun p hp => absurd hp (List.not_mem_nil p)⟩

/-! ## Stage lemmas for `analyze_ccg` -/




theorem subRefl {α : Type} (a : List α) : ∀ x ∈ a, x ∈ a := fun _ h => h

theorem subComp {α : Type} {a b c : List α} (h₁ : ∀ x ∈ a, x ∈ b)
    (h₂ : ∀ x ∈ b, x ∈ c) : ∀ x ∈ a, x ∈ c := fun x h => h₂ x (h₁ x h)

theorem keys_mono {a b : NodeMap} (h : NLe a b) {k : String} (hk : k ∈ keys a) : k ∈ keys b := by
  rcases List.mem_map.mp hk with ⟨p, hp, rfl⟩
  exact List.mem_map.mpr ⟨p, h p hp, rfl⟩

theorem NLe_setdefault (ns : NodeMap) (k : String) (v : NodeInfo) : NLe ns (setdefault ns k v) :=
  fun _ h => pair_mem_setdefault k v h

theorem edgesOk_mono {ns ns' : NodeMap} {es : List Edge} (h : NLe ns ns')
    (ho : edgesOk ns es) : edgesOk ns' es :=
  fun e he => ⟨keys_mono h (ho e he).1, keys_mono h (ho e he).2⟩

/-! ### First pass: module nodes -/

theorem moduleNodes_nle : ∀ (vs : List (FPath × VState)) (ns : NodeMap),
    NLe ns (moduleNodes vs ns)
  | [], ns => subRefl ns
  | (p, v) :: r, ns => by
    rw [moduleNodes]
    exact subComp (NLe_setdefault ns _ _) (moduleNodes_nle r _)

theorem moduleNodes_mod_mem : ∀ (vs : List (FPath × VState)) (ns : NodeMap),
    ∀ pv ∈ vs, ("mod:" ++ pv.2.module) ∈ keys (moduleNodes vs ns)
  | [], _, pv, hpv => absurd hpv (List.not_mem_nil pv)
  | (p, v) :: r, ns, pv, hpv => by
    rw [moduleNodes]
    rcases List.mem_cons.mp hpv with h | h
    · subst h
      exact keys_mono (moduleNodes_nle r _) (key_mem_setdefault_self ns _ _)
    · exact moduleNodes_mod_mem r _ pv h

/-! ### Second pass: definition nodes and `defines` edges -/

theorem addDefs_nle (pre typ module : String) :
    ∀ (l : List String) (ns : NodeMap) (es : List Edge),
      NLe ns (addDefs pre typ module l ns es).1
  | [], ns, es => subRefl ns
  | q :: r, ns, es => by
    rw [addDefs]
    exact subComp (NLe_setdefault ns _ _) (addDefs_nle pre typ module r _ _)

theorem addDefs_ele (pre typ module : String) :
    ∀ (l : List String) (ns : NodeMap) (es : List Edge),
      ELe es (addDefs pre typ module l ns es).2
  | [], ns, es => subRefl es
  | q :: r, ns, es => by
    rw [addDefs]
    exact subComp (fun e h => List.mem_append_left _ h) (addDefs_ele pre typ module r _ _)

theorem addDefs_ok (pre typ module : String) :
    ∀ (l : List String) (ns : NodeMap) (es : List Edge),
      ("mod:" ++ module) ∈ keys ns → edgesOk ns es →
      edgesOk (addDefs pre typ module l ns es).1 (addDefs pre typ module l ns es).2
  | [], ns, es, _, ho => ho
  | q :: r, ns, es, hm, ho => by
    rw [addDefs]
    refine addDefs_ok pre typ module r _ _ (key_mem_setdefault_of_mem _ _ hm) ?_
    intro e he
    rcases List.mem_append.mp he with he | he
    · exact (edgesOk_mono (NLe_setdefault ns _ _) ho) e he
    · rw [List.mem_singleton.mp he]
      exact ⟨key_mem_setdefault_of_mem _ _ hm, key_mem_setdefault_self ns _ _⟩

theorem addDefs_keys (pre typ module : String) :
    ∀ (l : List String) (ns : NodeMap) (es : List Edge),
      ∀ q ∈ l, (pre ++ q) ∈ keys (addDefs pre typ module l ns es).1
  | [], _, _, q, hq => absurd hq (List.not_mem_nil q)
  | q' :: r, ns, es, q, hq => by
    rw [addDefs]
    rcases List.mem_cons.mp hq with h | h
    · subst h
      exact keys_mono (addDefs_nle pre typ module r _ _) (key_mem_setdefault_self ns _ _)
    · exact addDefs_keys pre typ module r _ _ q h

theorem defineStage_nle : ∀ (vs : List (FPath × VState)) (ns : NodeMap) (es : List Edge),
    NLe ns (defineStage vs ns es).1
  | [], ns, _ => subRefl ns
  | (p, v) :: r, ns, es => by
    rw [defineStage]
    exact subComp (subComp (addDefs_nle _ _ _ _ _ _) (addDefs_nle _ _ _ _ _ _))
      (defineStage_nle r _ _)

theorem defineStage_ele : ∀ (vs : List (FPath × VState)) (ns : NodeMap) (es : List Edge),
    ELe es (defineStage vs ns es).2
  | [], _, es => subRefl es
  | (p, v) :: r, ns, es => by
    rw [defineStage]
    exact subComp (subComp (addDefs_ele _ _ _ _ _ _) (addDefs_ele _ _ _ _ _ _))
      (defineStage_ele r _ _)

theorem defineStage_ok : ∀ (vs : List (FPath × VState)) (ns : NodeMap) (es : List Edge),
    (∀ pv ∈ vs, ("mod:" ++ pv.2.module) ∈ keys ns) → edgesOk ns es →
    edgesOk (defineStage vs ns es).1 (defineStage vs ns es).2
  | [], _, _, _, ho => ho
  | (p, v) :: r, ns, es, hm, ho => by
    rw [defineStage]
    have hmv : ("mod:" ++ v.module) ∈ keys ns := hm (p, v) (List.mem_cons_self _ _)
    have h1 := addDefs_ok "fn:" "function" v.module v.funcs ns es hmv ho
    have h2 := addDefs_ok "class:" "class" v.module v.classes _ _
      (keys_mono (addDefs_nle _ _ _ _ _ _) hmv) h1
    refine defineStage_ok r _ _ (fun pv hpv => ?_) h2
    exact keys_mono (subComp (addDefs_nle _ _ _ _ _ _) (addDefs_nle _ _ _ _ _ _))
      (hm pv (List.mem_cons_of_mem _ hpv))

theorem defineStage_fn_keys : ∀ (vs : List (FPath × VState)) (ns : NodeMap) (es : List Edge),
    ∀ pv ∈ vs, ∀ q ∈ pv.2.funcs, ("fn:" ++ q) ∈ keys (defineStage vs ns es).1
  | [], _, _, pv, hpv, _, _ => absurd hpv (List.not_mem_nil pv)
  | (p, v) :: r, ns, es, pv, hpv, q, hq => by
    rw [defineStage]
    rcases List.mem_cons.mp hpv with h | h
    · subst h
      exact keys_mono (subComp (addDefs_nle _ _ _ _ _ _) (defineStage_nle r _ _))
        (addDefs_keys "fn:" "function" v.module v.funcs ns es q hq)
    · exact defineStage_fn_keys r _ _ pv h q hq

theorem defineStage_class_keys : ∀ (vs : List (FPath × VState)) (ns : NodeMap) (es : List Edge),
    ∀ pv ∈ vs, ∀ q ∈ pv.2.classes, ("class:" ++ q) ∈ keys (defineStage vs ns es).1
  | [], _, _, pv, hpv, _, _ => absurd hpv (List.not_mem_nil pv)
  | (p, v) :: r, ns, es, pv, hpv, q, hq => by
    rw [defineStage]
    rcases List.mem_cons.mp hpv with h | h
    · subst h
      exact keys_mono (defineStage_nle r _ _)
        (addDefs_keys "class:" "class" v.module v.classes _ _ q hq)
    · exact defineStage_class_keys r _ _ pv h q hq

/-! ### Third pass: base nodes and `inherits` edges -/

theorem addBases_nle (cl : String) : ∀ (l : List String) (ns : NodeMap) (es : List Edge),
    NLe ns (addBases cl l ns es).1
  | [], ns, _ => subRefl ns
  | b :: r, ns, es => by
    rw [addBases]
    exact subComp (NLe_setdefault ns _ _) (addBases_nle cl r _ _)

theorem addBases_ele (cl : String) : ∀ (l : List String) (ns : NodeMap) (es : List Edge),
    ELe es (addBases cl l ns es).2
  | [], _, es => subRefl es
  | b :: r, ns, es => by
    rw [addBases]
    exact subComp (fun e h => List.mem_append_left _ h) (addBases_ele cl r _ _)

theorem addBases_ok (cl : String) : ∀ (l : List String) (ns : NodeMap) (es : List Edge),
    ("class:" ++ cl) ∈ keys ns → edgesOk ns es →
    edgesOk (addBases cl l ns es).1 (addBases cl l ns es).2
  | [], _, _, _, ho => ho
  | b :: r, ns, es, hc, ho => by
    rw [addBases]
    refine addBases_ok cl r _ _ (key_mem_setdefault_of_mem _ _ hc) ?_
    intro e he
    rcases List.mem_append.mp he with he | he
    · exact (edgesOk_mono (NLe_setdefault ns _ _) ho) e he
    · rw [List.mem_singleton.mp he]
      exact ⟨key_mem_setdefault_of_mem _ _ hc, key_mem_setdefault_self ns _ _⟩

theorem addBases_complete (cl : String) : ∀ (l : List String) (ns : NodeMap) (es : List Edge),
    ∀ b ∈ l, ("base:" ++ b) ∈ keys (addBases cl l ns es).1 ∧
      Edge.mk ("class:" ++ cl) ("base:" ++ b) "inherits" "inherits" ∈ (addBases cl l ns es).2
  | [], _, _, b, hb => absurd hb (List.not_mem_nil b)
  | b' :: r, ns, es, b, hb => by
    rw [addBases]
    rcases List.mem_cons.mp hb with h | h
    · subst h
      exact ⟨keys_mono (addBases_nle cl r _ _) (key_mem_setdefault_self ns _ _),
        addBases_ele cl r _ _ _ (List.mem_append_right _ (List.mem_singleton.mpr rfl))⟩
    · exact addBases_complete cl r _ _ b h

theorem addClassBases_nle : ∀ (l : List (String × List String)) (ns : NodeMap) (es : List Edge),
    NLe ns (addClassBases l ns es).1
  | [], ns, _ => subRefl ns
  | (cl, bs) :: r, ns, es => by
    rw [addClassBases]
    exact subComp (addBases_nle cl bs ns es) (addClassBases_nle r _ _)

theorem addClassBases_ele : ∀ (l : List (String × List String)) (ns : NodeMap) (es : List Edge),
    ELe es (addClassBases l ns es).2
  | [], _, es => subRefl es
  | (cl, bs) :: r, ns, es => by
    rw [addClassBases]
    exact subComp (addBases_ele cl bs ns es) (addClassBases_ele r _ _)

theorem addClassBases_ok : ∀ (l : List (String × List String)) (ns : NodeMap) (es : List Edge),
    (∀ p ∈ l, ("class:" ++ p.1) ∈ keys ns) → edgesOk ns es →
    edgesOk (addClassBases l ns es).1 (addClassBases l ns es).2
  | [], _, _, _, ho => ho
  | (cl, bs) :: r, ns, es, hc, ho => by
    rw [addClassBases]
    refine addClassBases_ok r _ _ (fun p hp => ?_) ?_
    · exact keys_mono (addBases_nle cl bs ns es) (hc p (List.mem_cons_of_mem _ hp))
    · exact addBases_ok cl bs ns es (hc (cl, bs) (List.mem_cons_self _ _)) ho

theorem addClassBases_complete :
    ∀ (l : List (String × List String)) (ns : NodeMap) (es : List Edge),
    ∀ p ∈ l, ∀ b ∈ p.2, ("base:" ++ b) ∈ keys (addClassBases l ns es).1 ∧
      Edge.mk ("class:" ++ p.1) ("base:" ++ b) "inherits" "inherits" ∈ (addClassBases l ns es).2
  | [], _, _, p, hp, _, _ => absurd hp (List.not_mem_nil p)
  | (cl, bs) :: r, ns, es, p, hp, b, hb => by
    rw [addClassBases]
    rcases List.mem_cons.mp hp with h | h
    · subst h
      have := addBases_complete cl bs ns es b hb
      exact ⟨keys_mono (addClassBases_nle r _ _) this.1,
        addClassBases_ele r _ _ _ this.2⟩
    · exact addClassBases_complete r _ _ p h b hb

theorem inheritStage_nle : ∀ (vs : List (FPath × VState)) (ns : NodeMap) (es : List Edge),
    NLe ns (inheritStage vs ns es).1
  | [], ns, _ => subRefl ns
  | (p, v) :: r, ns, es => by
    rw [inheritStage]
    exact subComp (addClassBases_nle v.class_bases ns es) (inheritStage_nle r _ _)

theorem inheritStage_ele : ∀ (vs : List (FPath × VState)) (ns : NodeMap) (es : List Edge),
    ELe es (inheritStage vs ns es).2
  | [], _, es => subRefl es
  | (p, v) :: r, ns, es => by
    rw [inheritStage]
    exact subComp (addClassBases_ele v.class_bases ns es) (inheritStage_ele r _ _)

theorem inheritStage_ok : ∀ (vs : List (FPath × VState)) (ns : NodeMap) (es : List Edge),
    (∀ pv ∈ vs, ∀ p ∈ pv.2.class_bases, ("class:" ++ p.1) ∈ keys ns) → edgesOk ns es →
    edgesOk (inheritStage vs ns es).1 (inheritStage vs ns es).2
  | [], _, _, _, ho => ho
  | (pf, v) :: r, ns, es, hc, ho => by
    rw [inheritStage]
    refine inheritStage_ok r _ _ (fun pv hpv p hp => ?_) ?_
    · exact keys_mono (addClassBases_nle v.class_bases ns es)
        (hc pv (List.mem_cons_of_mem _ hpv) p hp)
    · exact addClassBases_ok v.class_bases ns es
        (fun p hp => hc (pf, v) (List.mem_cons_self _ _) p hp) ho

theorem inheritStage_complete : ∀ (vs : List (FPath × VState)) (ns : NodeMap) (es : List Edge),
    ∀ pv ∈ vs, ∀ p ∈ pv.2.class_bases, ∀ b ∈ p.2,
      ("base:" ++ b) ∈ keys (inheritStage vs ns es).1 ∧
      Edge.mk ("class:" ++ p.1) ("base:" ++ b) "inherits" "inherits" ∈ (inheritStage vs ns es).2
  | [], _, _, pv, hpv, _, _, _, _ => absurd hpv (List.not_mem_nil pv)
  | (pf, v) :: r, ns, es, pv, hpv, p, hp, b, hb => by
    rw [inheritStage]
    rcases List.mem_cons.mp hpv with h | h
    · subst h
      have := addClassBases_complete v.class_bases ns es p hp b hb
      exact ⟨keys_mono (inheritStage_nle r _ _) this.1, inheritStage_ele r _ _ _ this.2⟩
    · exact inheritStage_complete r _ _ pv h p hp b hb

/-! ### Fourth pass: `calls` / `instantiates` edges -/



theorem nameToNode_sound {ns : NodeMap} {k t : String} (h : t ∈ nameToNode ns k) :
    ∃ nd, (t, nd) ∈ ns ∧ (nd.name = some k ∨ nd.qualname = some k) := by
  rcases List.mem_flatMap.mp h with ⟨p, hp, hm⟩
  rcases List.mem_append.mp hm with hm | hm
  · split at hm
    · next hc =>
      rcases List.mem_singleton.mp hm with rfl
      exact ⟨p.2, hp, Or.inl hc.1⟩
    · exact absurd hm (List.not_mem_nil t)
  · split at hm
    · next hc =>
      rcases List.mem_singleton.mp hm with rfl
      exact ⟨p.2, hp, Or.inr hc.1⟩
    · exact absurd hm (List.not_mem_nil t)

theorem nameToNode_keys {ns : NodeMap} {k t : String} (h : t ∈ nameToNode ns k) :
    t ∈ keys ns := by
  rcases nameToNode_sound h with ⟨nd, hmem, _⟩
  exact List.mem_map.mpr ⟨(t, nd), hmem, rfl⟩

theorem callerNid_mem {ns : NodeMap} (module site : String)
    (hm : ("mod:" ++ module) ∈ keys ns) : callerNid ns module site ∈ keys ns := by
  unfold callerNid
  split
  · assumption
  · split
    · assumption
    · exact hm

theorem processCalls_nle (module : String) (snap : String → List String) :
    ∀ (l : List (String × String)) (ns : NodeMap) (es : List Edge),
      NLe ns (processCalls module snap l ns es).1
  | [], ns, _ => subRefl ns
  | (site, callee) :: r, ns, es => by
    rw [processCalls]
    cases hs : snap callee with
    | nil =>
      simp only
      exact subComp (NLe_setdefault ns _ _) (processCalls_nle module snap r _ _)
    | cons t ts =>
      simp only
      exact processCalls_nle module snap r _ _
  
theorem processCalls_ele (module : String) (snap : String → List String) :
    ∀ (l : List (String × String)) (ns : NodeMap) (es : List Edge),
      ELe es (processCalls module snap l ns es).2
  | [], _, es => subRefl es
  | (site, callee) :: r, ns, es => by
    rw [processCalls]
    cases hs : snap callee with
    | nil =>
      exact subComp (fun e h => List.mem_append_left _ h) (processCalls_ele module snap r _ _)
    | cons t ts =>
      exact subComp (fun e h => List.mem_append_left _ h) (processCalls_ele module snap r _ _)

theorem processCalls_ok (module : String) (snap : String → List String) :
    ∀ (l : List (String × String)) (ns : NodeMap) (es : List Edge),
      ("mod:" ++ module) ∈ keys ns → (∀ k t, t ∈ snap k → t ∈ keys ns) → edgesOk ns es →
      edgesOk (processCalls module snap l ns es).1 (processCalls module snap l ns es).2
  | [], _, _, _, _, ho => ho
  | (site, callee) :: r, ns, es, hm, hsnap, ho => by
    rw [processCalls]
    cases hs : snap callee with
    | nil =>
      refine processCalls_ok module snap r _ _ (key_mem_setdefault_of_mem _ _ hm)
        (fun k t ht => key_mem_setdefault_of_mem _ _ (hsnap k t ht)) ?_
      intro e he
      rcases List.mem_append.mp he with he | he
      · exact (edgesOk_mono (NLe_setdefault ns _ _) ho) e he
      · rw [List.mem_singleton.mp he]
        exact ⟨key_mem_setdefault_of_mem _ _ (callerNid_mem module site hm),
          key_mem_setdefault_self ns _ _⟩
    | cons t ts =>
      refine processCalls_ok module snap r _ _ hm hsnap ?_
      intro e he
      rcases List.mem_append.mp he with he | he
      · exact ho e he
      · rw [List.mem_singleton.mp he]
        exact ⟨callerNid_mem module site hm, hsnap callee t (hs ▸ List.mem_cons_self t ts)⟩

theorem processCalls_complete (module : String) (snap : String → List String) :
    ∀ (l : List (String × String)) (ns : NodeMap) (es : List Edge),
      ∀ x ∈ l, ∃ c, Edge.mk c (resolveCallT snap x.2) "calls" "calls" ∈
        (processCalls module snap l ns es).2
  | [], _, _, x, hx => absurd hx (List.not_mem_nil x)
  | (site, callee) :: r, ns, es, x, hx => by
    rw [processCalls]
    rcases List.mem_cons.mp hx with h | h
    · subst h
      cases hs : snap callee with
      | nil =>
        refine ⟨callerNid ns module site, processCalls_ele module snap r _ _ _ ?_⟩
        refine List.mem_append_right _ (List.mem_singleton.mpr ?_)
        simp [resolveCallT, hs]
      | cons t ts =>
        refine ⟨callerNid ns module site, processCalls_ele module snap r _ _ _ ?_⟩
        refine List.mem_append_right _ (List.mem_singleton.mpr ?_)
        simp [resolveCallT, hs]
    · cases hs : snap callee with
      | nil => exact processCalls_complete module snap r _ _ x h
      | cons t ts => exact processCalls_complete module snap r _ _ x h

theorem processInsts_nle (module : String) (snap : String → List String) :
    ∀ (l : List (String × String)) (ns : NodeMap) (es : List Edge),
      NLe ns (processInsts module snap l ns es).1
  | [], ns, _ => subRefl ns
  | (site, cls) :: r, ns, es => by
    rw [processInsts]
    cases hs : snap cls with
    | nil =>
      exact subComp (NLe_setdefault ns _ _) (processInsts_nle module snap r _ _)
    | cons t ts =>
      exact processInsts_nle module snap r _ _

theorem processInsts_ele (module : String) (snap : String → List String) :
    ∀ (l : List (String × String)) (ns : NodeMap) (es : List Edge),
      ELe es (processInsts module snap l ns es).2
  | [], _, es => subRefl es
  | (site, cls) :: r, ns, es => by
    rw [processInsts]
    cases hs : snap cls with
    | nil =>
      exact subComp (fun e h => List.mem_append_left _ h) (processInsts_ele module snap r _ _)
    | cons t ts =>
      exact subComp (fun e h => List.mem_append_left _ h) (processInsts_ele module snap r _ _)

theorem processInsts_ok (module : String) (snap : String → List String) :
    ∀ (l : List (String × String)) (ns : NodeMap) (es : List Edge),
      ("mod:" ++ module) ∈ keys ns → (∀ k t, t ∈ snap k → t ∈ keys ns) → edgesOk ns es →
      edgesOk (processInsts module snap l ns es).1 (processInsts module snap l ns es).2
  | [], _, _, _, _, ho => ho
  | (site, cls) :: r, ns, es, hm, hsnap, ho => by
    rw [processInsts]
    cases hs : snap cls with
    | nil =>
      refine processInsts_ok module snap r _ _ (key_mem_setdefault_of_mem _ _ hm)
        (fun k t ht => key_mem_setdefault_of_mem _ _ (hsnap k t ht)) ?_
      intro e he
      rcases List.mem_append.mp he with he | he
      · exact (edgesOk_mono (NLe_setdefault ns _ _) ho) e he
      · rw [List.mem_singleton.mp he]
        exact ⟨key_mem_setdefault_of_mem _ _ (callerNid_mem module site hm),
          key_mem_setdefault_self ns _ _⟩
    | cons t ts =>
      refine processInsts_ok module snap r _ _ hm hsnap ?_
      intro e he
      rcases List.mem_append.mp he with he | he
      · exact ho e he
      · rw [List.mem_singleton.mp he]
        exact ⟨callerNid_mem module site hm, hsnap cls t (hs ▸ List.mem_cons_self t ts)⟩

theorem processInsts_complete (module : String) (snap : String → List String) :
    ∀ (l : List (String × String)) (ns : NodeMap) (es : List Edge),
      ∀ x ∈ l, ∃ c, Edge.mk c (resolveInstT snap x.2) "instantiates" "instantiates" ∈
        (processInsts module snap l ns es).2
  | [], _, _, x, hx => absurd hx (List.not_mem_nil x)
  | (site, cls) :: r, ns, es, x, hx => by
    rw [processInsts]
    rcases List.mem_cons.mp hx with h | h
    · subst h
      cases hs : snap cls with
      | nil =>
        refine ⟨callerNid ns module site, processInsts_ele module snap r _ _ _ ?_⟩
        refine List.mem_append_right _ (List.mem_singleton.mpr ?_)
        simp [resolveInstT, hs]
      | cons t ts =>
        refine ⟨callerNid ns module site, processInsts_ele module snap r _ _ _ ?_⟩
        refine List.mem_append_right _ (List.mem_singleton.mpr ?_)
        simp [resolveInstT, hs]
    · cases hs : snap cls with
      | nil => exact processInsts_complete module snap r _ _ x h
      | cons t ts => exact processInsts_complete module snap r _ _ x h

theorem callStage_nle : ∀ (vs : List (FPath × VState)) (ns : NodeMap) (es : List Edge),
    NLe ns (callStage vs ns es).1
  | [], ns, _ => subRefl ns
  | (p, v) :: r, ns, es => by
    rw [callStage]
    exact subComp (subComp (processCalls_nle _ _ _ _ _) (processInsts_nle _ _ _ _ _))
      (callStage_nle r _ _)

theorem callStage_ele : ∀ (vs : List (FPath × VState)) (ns : NodeMap) (es : List Edge),
    ELe es (callStage vs ns es).2
  | [], _, es => subRefl es
  | (p, v) :: r, ns, es => by
    rw [callStage]
    exact subComp (subComp (processCalls_ele _ _ _ _ _) (processInsts_ele _ _ _ _ _))
      (callStage_ele r _ _)

theorem callStage_ok : ∀ (vs : List (FPath × VState)) (ns : NodeMap) (es : List Edge),
    (∀ pv ∈ vs, ("mod:" ++ pv.2.module) ∈ keys ns) → edgesOk ns es →
    edgesOk (callStage vs ns es).1 (callStage vs ns es).2
  | [], _, _, _, ho => ho
  | (p, v) :: r, ns, es, hm, ho => by
    rw [callStage]
    have hmv : ("mod:" ++ v.module) ∈ keys ns := hm (p, v) (List.mem_cons_self _ _)
    have h1 := processCalls_ok v.module (nameToNode ns) v.calls ns es hmv
      (fun k t ht => nameToNode_keys ht) ho
    have h2 := processInsts_ok v.module (nameToNode ns) v.instantiates _ _
      (keys_mono (processCalls_nle _ _ _ _ _) hmv)
      (fun k t ht => keys_mono (processCalls_nle _ _ _ _ _) (nameToNode_keys ht)) h1
    refine callStage_ok r _ _ (fun pv hpv => ?_) h2
    exact keys_mono (subComp (processCalls_nle _ _ _ _ _) (processInsts_nle _ _ _ _ _))
      (hm pv (List.mem_cons_of_mem _ hpv))

theorem callStage_calls_complete :
    ∀ (vs : List (FPath × VState)) (ns : NodeMap) (es : List Edge),
    ∀ pv ∈ vs, ∀ x ∈ pv.2.calls,
      ∃ c t, Edge.mk c t "calls" "calls" ∈ (callStage vs ns es).2 ∧
        (t = "fn:unresolved::" ++ x.2 ∨
         ∃ nd, (t, nd) ∈ (callStage vs ns es).1 ∧
           (nd.name = some x.2 ∨ nd.qualname = some x.2))
  | [], _, _, pv, hpv, _, _ => absurd hpv (List.not_mem_nil pv)
  | (p, v) :: r, ns, es, pv, hpv, x, hx => by
    rw [callStage]
    rcases List.mem_cons.mp hpv with h | h
    · subst h
      rcases processCalls_complete v.module (nameToNode ns) v.calls ns es x hx with ⟨c, hc⟩
      refine ⟨c, resolveCallT (nameToNode ns) x.2,
        callStage_ele r _ _ _ (processInsts_ele _ _ _ _ _ _ hc), ?_⟩
      unfold resolveCallT
      cases hs : nameToNode ns x.2 with
      | nil => exact Or.inl rfl
      | cons t ts =>
        rcases nameToNode_sound (hs ▸ List.mem_cons_self t ts) with ⟨nd, hnd, hm⟩
        refine Or.inr ⟨nd, ?_, hm⟩
        exact callStage_nle r _ _ _ (processInsts_nle _ _ _ _ _ _
          (processCalls_nle _ _ _ _ _ _ hnd))
    · exact callStage_calls_complete r _ _ pv h x hx

theorem callStage_inst_complete :
    ∀ (vs : List (FPath × VState)) (ns : NodeMap) (es : List Edge),
    ∀ pv ∈ vs, ∀ x ∈ pv.2.instantiates,
      ∃ c t, Edge.mk c t "instantiates" "instantiates" ∈ (callStage vs ns es).2 ∧
        (t = "class:unresolved::" ++ x.2 ∨
         ∃ nd, (t, nd) ∈ (callStage vs ns es).1 ∧
           (nd.name = some x.2 ∨ nd.qualname = some x.2))
  | [], _, _, pv, hpv, _, _ => absurd hpv (List.not_mem_nil pv)
  | (p, v) :: r, ns, es, pv, hpv, x, hx => by
    rw [callStage]
    rcases List.mem_cons.mp hpv with h | h
    · subst h
      rcases processInsts_complete v.module (nameToNode ns) v.instantiates _ _ x hx with ⟨c, hc⟩
      refine ⟨c, resolveInstT (nameToNode ns) x.2, callStage_ele r _ _ _ hc, ?_⟩
      unfold resolveInstT
      cases hs : nameToNode ns x.2 with
      | nil => exact Or.inl rfl
      | cons t ts =>
        rcases nameToNode_sound (hs ▸ List.mem_cons_self t ts) with ⟨nd, hnd, hm⟩
        refine Or.inr ⟨nd, ?_, hm⟩
        exact callStage_nle r _ _ _ (processInsts_nle _ _ _ _ _ _
          (processCalls_nle _ _ _ _ _ _ hnd))
    · exact callStage_inst_complete r _ _ pv h x hx

/-! ### Assembled pipeline lemmas -/

theorem ccgVisitors_mem {root : FPath} {parse : FPath → Option (List PNode)}
    {files : List FPath} {pv : FPath × VState} (h : pv ∈ ccgVisitors root parse files) :
    ∃ tree, parse pv.1 = some tree ∧
      pv.2 = runVisitor (_module_name_from_path root pv.1) tree := by
  rcases List.mem_filterMap.mp h with ⟨p, hp, hmap⟩
  rcases Option.map_eq_some'.mp hmap with ⟨tree, hparse, heq⟩
  cases heq
  exact ⟨tree, hparse, rfl⟩

theorem ccgVisitors_inv {root : FPath} {parse : FPath → Option (List PNode)}
    {files : List FPath} {pv : FPath × VState} (h : pv ∈ ccgVisitors root parse files) :
    VInv pv.2 := by
  rcases ccgVisitors_mem h with ⟨tree, _, heq⟩
  rw [heq]
  exact runVisitor_inv _ tree


theorem analyze_ccg_eq (root : FPath) (parse : FPath → Option (List PNode))
    (fs : List FPath) :
    analyze_ccg root parse fs =
      ⟨(ccgState root parse fs).1, (ccgState root parse fs).2,
       (find_code_files fs [".py"]).length⟩ := rfl

theorem ccgState_ok (root : FPath) (parse : FPath → Option (List PNode)) (fs : List FPath) :
    edgesOk (ccgState root parse fs).1 (ccgState root parse fs).2 := by
  unfold ccgState
  set vs := ccgVisitors root parse (find_code_files fs [".py"]) with hvs
  have h0 : ∀ pv ∈ vs, ("mod:" ++ pv.2.module) ∈ keys (moduleNodes vs []) :=
    fun pv hpv => moduleNodes_mod_mem vs [] pv hpv
  have ho0 : edgesOk (moduleNodes vs []) [] := fun e he => absurd he (List.not_mem_nil e)
  have h1 := defineStage_ok vs (moduleNodes vs []) [] h0 ho0
  have hc1 : ∀ pv ∈ vs, ∀ p ∈ pv.2.class_bases,
      ("class:" ++ p.1) ∈ keys (defineStage vs (moduleNodes vs []) []).1 := by
    intro pv hpv p hp
    exact defineStage_class_keys vs (moduleNodes vs []) [] pv hpv p.1
      ((ccgVisitors_inv hpv).1 p hp)
  have h2 := inheritStage_ok vs _ _ hc1 h1
  have m2 : ∀ pv ∈ vs, ("mod:" ++ pv.2.module) ∈
      keys (inheritStage vs (defineStage vs (moduleNodes vs []) []).1
        (defineStage vs (moduleNodes vs []) []).2).1 := by
    intro pv hpv
    exact keys_mono (inheritStage_nle vs _ _) (keys_mono (defineStage_nle vs _ _) (h0 pv hpv))
  exact callStage_ok vs _ _ m2 h2

/-! ## Lemmas about `build_ccg` -/

theorem SLe_addSet (l : List String) (x : String) : SLe l (addSet l x) :=
  fun _ h => mem_addSet_of_mem _ h

theorem bBaseEdges_ssub (q : String) : ∀ (l : List PExpr) (ns : List String) (es : List BEdge),
    SLe ns (bBaseEdges q l ns es).1
  | [], ns, _ => subRefl ns
  | b :: r, ns, es => by
    rw [bBaseEdges]
    cases bBaseName b with
    | none => exact bBaseEdges_ssub q r ns es
    | some bn =>
      by_cases hbn : bn = ""
      · simp only [hbn, ne_eq, not_true_eq_false, if_false]
        exact bBaseEdges_ssub q r ns es
      · simp only [ne_eq, hbn, not_false_eq_true, if_true]
        exact subComp (SLe_addSet ns bn) (bBaseEdges_ssub q r _ _)

theorem bBaseEdges_esub (q : String) : ∀ (l : List PExpr) (ns : List String) (es : List BEdge),
    BELe es (bBaseEdges q l ns es).2
  | [], _, es => subRefl es
  | b :: r, ns, es => by
    rw [bBaseEdges]
    cases bBaseName b with
    | none => exact bBaseEdges_esub q r ns es
    | some bn =>
      by_cases hbn : bn = ""
      · simp only [hbn, ne_eq, not_true_eq_false, if_false]
        exact bBaseEdges_esub q r ns es
      · simp only [ne_eq, hbn, not_false_eq_true, if_true]
        exact subComp (fun e h => List.mem_append_left _ h) (bBaseEdges_esub q r _ _)

theorem bBaseEdges_complete (q : String) :
    ∀ (l : List PExpr) (ns : List String) (es : List BEdge),
    ∀ be ∈ l, ∀ bn, bBaseName be = some bn → bn ≠ "" →
      bn ∈ (bBaseEdges q l ns es).1 ∧ BEdge.mk bn q "inherit" ∈ (bBaseEdges q l ns es).2
  | [], _, _, be, hbe, _, _, _ => absurd hbe (List.not_mem_nil be)
  | b :: r, ns, es, be, hbe, bn, hbn, hne => by
    rw [bBaseEdges]
    rcases List.mem_cons.mp hbe with h | h
    · subst h
      rw [hbn]
      simp only [ne_eq, hne, not_false_eq_true, if_true]
      constructor
      · exact bBaseEdges_ssub q r _ _ bn (mem_addSet_self ns bn)
      · exact bBaseEdges_esub q r _ _ _ (List.mem_append_right _ (List.mem_singleton.mpr rfl))
    · cases hb : bBaseName b with
      | none => exact bBaseEdges_complete q r ns es be h bn hbn hne
      | some bn' =>
        by_cases hbn' : bn' = ""
        · simp only [hbn', ne_eq, not_true_eq_false, if_false]
          exact bBaseEdges_complete q r ns es be h bn hbn hne
        · simp only [ne_eq, hbn', not_false_eq_true, if_true]
          exact bBaseEdges_complete q r _ _ be h bn hbn hne

theorem bTopLevel_ssub (module : String) :
    ∀ (l : List PNode) (ns : List String) (es : List BEdge),
    SLe ns (bTopLevel module l ns es).1
  | [], ns, _ => subRefl ns
  | n :: r, ns, es => by
    cases n with
    | funcDef name body =>
      exact subComp (SLe_addSet ns _) (bTopLevel_ssub module r _ _)
    | classDef name bases body =>
      exact subComp (subComp (SLe_addSet ns _) (bBaseEdges_ssub _ bases _ _))
        (bTopLevel_ssub module r _ _)
    | asyncFuncDef name body => exact bTopLevel_ssub module r ns es
    | exprStmt e => exact bTopLevel_ssub module r ns es
    | passStmt => exact bTopLevel_ssub module r ns es

theorem bTopLevel_esub (module : String) :
    ∀ (l : List PNode) (ns : List String) (es : List BEdge),
    BELe es (bTopLevel module l ns es).2
  | [], _, es => subRefl es
  | n :: r, ns, es => by
    cases n with
    | funcDef name body => exact bTopLevel_esub module r _ _
    | classDef name bases body =>
      exact subComp (bBaseEdges_esub _ bases _ _) (bTopLevel_esub module r _ _)
    | asyncFuncDef name body => exact bTopLevel_esub module r ns es
    | exprStmt e => exact bTopLevel_esub module r ns es
    | passStmt => exact bTopLevel_esub module r ns es

theorem bTopLevel_complete (module : String) :
    ∀ (l : List PNode) (ns : List String) (es : List BEdge),
    ∀ name bases body, PNode.classDef name bases body ∈ l →
    ∀ be ∈ bases, ∀ bn, bBaseName be = some bn → bn ≠ "" →
      bn ∈ (bTopLevel module l ns es).1 ∧
      BEdge.mk bn (_qualname module name) "inherit" ∈ (bTopLevel module l ns es).2
  | [], _, _, name, bases, body, hmem, _, _, _, _, _ => absurd hmem (List.not_mem_nil _)
  | n :: r, ns, es, name, bases, body, hmem, be, hbe, bn, hbn, hne => by
    rcases List.mem_cons.mp hmem with h | h
    · subst h
      have hc := bBaseEdges_complete (_qualname module name) bases (addSet ns (_qualname module name)) es be hbe bn hbn hne
      exact ⟨bTopLevel_ssub module r _ _ bn hc.1, bTopLevel_esub module r _ _ _ hc.2⟩
    · cases n with
      | funcDef nm body' => exact bTopLevel_complete module r _ _ name bases body h be hbe bn hbn hne
      | classDef nm bases' body' =>
        exact bTopLevel_complete module r _ _ name bases body h be hbe bn hbn hne
      | asyncFuncDef nm body' => exact bTopLevel_complete module r _ _ name bases body h be hbe bn hbn hne
      | exprStmt e => exact bTopLevel_complete module r _ _ name bases body h be hbe bn hbn hne
      | passStmt => exact bTopLevel_complete module r _ _ name bases body h be hbe bn hbn hne

theorem BState_call_sub (module : String) (f : PExpr) (s : BState) :
    SLe s.nodes (match _get_call_name f with
                 | none => s
                 | some tgt =>
                   let s' := { s with nodes := addSet s.nodes tgt }
                   match s'.current_fn with
                   | some fn => { s' with edges := s'.edges ++ [⟨fn, tgt, "call"⟩] }
                   | none => s' : BState).nodes ∧
    BELe s.edges (match _get_call_name f with
                  | none => s
                  | some tgt =>
                    let s' := { s with nodes := addSet s.nodes tgt }
                    match s'.current_fn with
                    | some fn => { s' with edges := s'.edges ++ [⟨fn, tgt, "call"⟩] }
                    | none => s' : BState).edges := by
  cases _get_call_name f with
  | none => exact ⟨subRefl _, subRefl _⟩
  | some tgt =>
    cases s.current_fn with
    | none => exact ⟨SLe_addSet _ _, subRefl _⟩
    | some fn => exact ⟨SLe_addSet _ _, fun e h => List.mem_append_left _ h⟩

mutual
theorem bVisitExpr_sub (module : String) (e : PExpr) (s : BState) :
    SLe s.nodes (bVisitExpr module e s).nodes ∧ BELe s.edges (bVisitExpr module e s).edges := by
  cases e with
  | pname id => exact ⟨subRefl _, subRefl _⟩
  | pconst r => exact ⟨subRefl _, subRefl _⟩
  | pattr v a =>
    rw [bVisitExpr]
    exact bVisitExpr_sub module v s
  | pcall f args =>
    rw [bVisitExpr]
    have h1 := BState_call_sub module f s
    constructor
    · exact subComp (subComp h1.1 (bVisitExpr_sub module f _).1) (bVisitExprs_sub module args _).1
    · exact subComp (subComp h1.2 (bVisitExpr_sub module f _).2) (bVisitExprs_sub module args _).2
termination_by structural e

theorem bVisitExprs_sub (module : String) (l : List PExpr) (s : BState) :
    SLe s.nodes (bVisitExprs module l s).nodes ∧ BELe s.edges (bVisitExprs module l s).edges := by
  cases l with
  | nil => exact ⟨subRefl _, subRefl _⟩
  | cons e r =>
    rw [bVisitExprs]
    have h1 := bVisitExpr_sub module e s
    exact ⟨subComp h1.1 (bVisitExprs_sub module r _).1, subComp h1.2 (bVisitExprs_sub module r _).2⟩
termination_by structural l
end

mutual
theorem bVisitNode_sub (module : String) (n : PNode) (s : BState) :
    SLe s.nodes (bVisitNode module n s).nodes ∧ BELe s.edges (bVisitNode module n s).edges := by
  cases n with
  | funcDef name body =>
    rw [bVisitNode]
    have h2 := bVisitNodes_sub module body ⟨addSet s.nodes (_qualname module name), s.edges, some (_qualname module name)⟩
    exact ⟨subComp (SLe_addSet _ _) h2.1, h2.2⟩
  | asyncFuncDef name body =>
    rw [bVisitNode]
    exact bVisitNodes_sub module body s
  | classDef name bases body =>
    rw [bVisitNode]
    have h1 := bVisitExprs_sub module bases { s with current_fn := some (_qualname module name) }
    exact ⟨subComp h1.1 (bVisitNodes_sub module body _).1, subComp h1.2 (bVisitNodes_sub module body _).2⟩
  | exprStmt e =>
    rw [bVisitNode]
    exact bVisitExpr_sub module e s
  | passStmt => exact ⟨subRefl _, subRefl _⟩
termination_by structural n

theorem bVisitNodes_sub (module : String) (l : List PNode) (s : BState) :
    SLe s.nodes (bVisitNodes module l s).nodes ∧ BELe s.edges (bVisitNodes module l s).edges := by
  cases l with
  | nil => exact ⟨subRefl _, subRefl _⟩
  | cons n r =>
    rw [bVisitNodes]
    have h1 := bVisitNode_sub module n s
    exact ⟨subComp h1.1 (bVisitNodes_sub module r _).1, subComp h1.2 (bVisitNodes_sub module r _).2⟩
termination_by structural l
end

theorem bProcessFile_sub (repo_root : FPath) (parse : FPath → Option (List PNode)) (p : FPath)
    (ns : List String) (es : List BEdge) :
    SLe ns (bProcessFile repo_root parse p ns es).1 ∧
    BELe es (bProcessFile repo_root parse p ns es).2 := by
  unfold bProcessFile
  cases parse p with
  | none => exact ⟨subRefl _, subRefl _⟩
  | some tree =>
    have h1s := bTopLevel_ssub (bModuleName repo_root p) tree ns es
    have h1e := bTopLevel_esub (bModuleName repo_root p) tree ns es
    have h2 := bVisitNodes_sub (bModuleName repo_root p) tree
      ⟨(bTopLevel (bModuleName repo_root p) tree ns es).1,
       (bTopLevel (bModuleName repo_root p) tree ns es).2, none⟩
    exact ⟨subComp h1s h2.1, subComp h1e h2.2⟩

theorem bProcessFile_complete (repo_root : FPath) (parse : FPath → Option (List PNode))
    (p : FPath) (ns : List String) (es : List BEdge) (tree : List PNode)
    (hp : parse p = some tree) :
    ∀ name bases body, PNode.classDef name bases body ∈ tree →
    ∀ be ∈ bases, ∀ bn, bBaseName be = some bn → bn ≠ "" →
      bn ∈ (bProcessFile repo_root parse p ns es).1 ∧
      BEdge.mk bn (_qualname (bModuleName repo_root p) name) "inherit" ∈
        (bProcessFile repo_root parse p ns es).2 := by
  intro name bases body hmem be hbe bn hbn hne
  unfold bProcessFile
  rw [hp]
  have hc := bTopLevel_complete (bModuleName repo_root p) tree ns es name bases body hmem be hbe bn hbn hne
  have h2 := bVisitNodes_sub (bModuleName repo_root p) tree
    ⟨(bTopLevel (bModuleName repo_root p) tree ns es).1,
     (bTopLevel (bModuleName repo_root p) tree ns es).2, none⟩
  exact ⟨h2.1 bn hc.1, h2.2 _ hc.2⟩

theorem bFiles_sub (repo_root : FPath) (parse : FPath → Option (List PNode)) :
    ∀ (l : List FPath) (ns : List String) (es : List BEdge),
    SLe ns (bFiles repo_root parse l ns es).1 ∧ BELe es (bFiles repo_root parse l ns es).2
  | [], ns, es => ⟨subRefl ns, subRefl es⟩
  | p :: r, ns, es => by
    rw [bFiles]
    have h1 := bProcessFile_sub repo_root parse p ns es
    exact ⟨subComp h1.1 (bFiles_sub repo_root parse r _ _).1,
      subComp h1.2 (bFiles_sub repo_root parse r _ _).2⟩

theorem bFiles_complete (repo_root : FPath) (parse : FPath → Option (List PNode)) :
    ∀ (l : List FPath) (ns : List String) (es : List BEdge),
    ∀ p ∈ l, ∀ tree, parse p = some tree →
    ∀ name bases body, PNode.classDef name bases body ∈ tree →
    ∀ be ∈ bases, ∀ bn, bBaseName be = some bn → bn ≠ "" →
      bn ∈ (bFiles repo_root parse l ns es).1 ∧
      BEdge.mk bn (_qualname (bModuleName repo_root p) name) "inherit" ∈
        (bFiles repo_root parse l ns es).2
  | [], _, _, p, hp, _, _, _, _, _, _, _, _, _, _, _ => absurd hp (List.not_mem_nil p)
  | p' :: r, ns, es, p, hp, tree, hparse, name, bases, body, hmem, be, hbe, bn, hbn, hne => by
    rw [bFiles]
    rcases List.mem_cons.mp hp with h | h
    · subst h
      have hc := bProcessFile_complete repo_root parse p ns es tree hparse
        name bases body hmem be hbe bn hbn hne
      exact ⟨(bFiles_sub repo_root parse r _ _).1 bn hc.1,
        (bFiles_sub repo_root parse r _ _).2 _ hc.2⟩
    · exact bFiles_complete repo_root parse r _ _ p h tree hparse name bases body hmem be hbe bn hbn hne

theorem sortStrings_mem {l : List String} {x : String} : x ∈ sortStrings l ↔ x ∈ l :=
  (List.perm_insertionSort strLe l).mem_iff

theorem sortPaths_mem {l : List FPath} {x : FPath} : x ∈ sortPaths l ↔ x ∈ l :=
  (List.perm_insertionSort fpLe l).mem_iff

theorem build_ccg_mem_nodes (repo_root : FPath) (parse : FPath → Option (List PNode))
    (files : List FPath) {x : String} :
    x ∈ (build_ccg repo_root parse files).nodes ↔
      x ∈ (bFiles repo_root parse (_iter_py_files files) [] []).1 := sortStrings_mem

/-! ## Claim C1 -/

theorem ccgState_inherits (root : FPath) (parse : FPath → Option (List PNode)) (fs : List FPath) :
    ∀ pv ∈ ccgVisitors root parse (find_code_files fs [".py"]),
    ∀ p ∈ pv.2.class_bases, ∀ b ∈ p.2,
      ("base:" ++ b) ∈ keys (ccgState root parse fs).1 ∧
      Edge.mk ("class:" ++ p.1) ("base:" ++ b) "inherits" "inherits" ∈
        (ccgState root parse fs).2 := by
  intro pv hpv p hp b hb
  unfold ccgState
  set vs := ccgVisitors root parse (find_code_files fs [".py"]) with hvs
  have hc := inheritStage_complete vs (defineStage vs (moduleNodes vs []) []).1
    (defineStage vs (moduleNodes vs []) []).2 pv hpv p hp b hb
  exact ⟨keys_mono (callStage_nle _ _ _) hc.1, callStage_ele _ _ _ _ hc.2⟩

/-- Claim C1, counterexample: in `analyze_ccg`, for `class Child(Base)` with no
local definition of `Base`, the placeholder `base:Base` node exists, but the
`inherits` edge runs from the subclass node to the base node; the edge with
`from_id` the base and `to_id` the subclass that the claim requires is absent. -/
theorem C1_counterexample :
    ("base:Base") ∈ keys exChildGraph.nodes ∧
    Edge.mk "class:child.py::Child" "base:Base" "inherits" "inherits" ∈ exChildGraph.edges ∧
    Edge.mk "base:Base" "class:child.py::Child" "inherits" "inherits" ∉ exChildGraph.edges :=
  ⟨by decide, by decide, by decide⟩

/-- Claim C1 (amended): for every class definition recorded with a declared
base `b`, `analyze_ccg` registers the placeholder node `base:b` and emits the
`inherits` edge directed from the subclass node to the base node
(`from_id = class, to_id = base`, the opposite of the claimed direction),
while `ccg_builder.build_ccg` registers the base name as a node and emits its
`inherit` edge from the base to the subclass (`src = base, tgt = subclass`)
as the claim states. -/
theorem C1_inherits_direction :
    (∀ (root : FPath) (parse : FPath → Option (List PNode)) (fs : List FPath),
      ∀ pv ∈ ccgVisitors root parse (find_code_files fs [".py"]),
      ∀ p ∈ pv.2.class_bases, ∀ b ∈ p.2,
        ("base:" ++ b) ∈ keys (analyze_ccg root parse fs).nodes ∧
        Edge.mk ("class:" ++ p.1) ("base:" ++ b) "inherits" "inherits" ∈
          (analyze_ccg root parse fs).edges) ∧
    (∀ (root : FPath) (parse : FPath → Option (List PNode)) (files : List FPath),
      ∀ p ∈ _iter_py_files files, ∀ tree, parse p = some tree →
      ∀ name bases body, PNode.classDef name bases body ∈ tree →
      ∀ be ∈ bases, ∀ bn, bBaseName be = some bn → bn ≠ "" →
        bn ∈ (build_ccg root parse files).nodes ∧
        BEdge.mk bn (_qualname (bModuleName root p) name) "inherit" ∈
          (build_ccg root parse files).edges) := by
  constructor
  · intro root parse fs pv hpv p hp b hb
    exact ccgState_inherits root parse fs pv hpv p hp b hb
  · intro root parse files p hp tree hparse name bases body hmem be hbe bn hbn hne
    have hc := bFiles_complete root parse (_iter_py_files files) [] [] p hp tree hparse
      name bases body hmem be hbe bn hbn hne
    exact ⟨(build_ccg_mem_nodes root parse files).mpr hc.1, hc.2⟩

/-- Claim C1, witness: the amended theorem applied to the `Child(Base)` scenario. -/
theorem C1_witness :
    ("base:Base") ∈ keys (analyze_ccg ["r"] exChildParse [["r", "child.py"]]).nodes ∧
    Edge.mk "class:child.py::Child" "base:Base" "inherits" "inherits" ∈
      (analyze_ccg ["r"] exChildParse [["r", "child.py"]]).edges :=
  C1_inherits_direction.1 ["r"] exChildParse [["r", "child.py"]]
    (["r", "child.py"], runVisitor "child.py" [PNode.classDef "Child" [PExpr.pname "Base"] []])
    (by decide) ("child.py::Child", ["Base"]) (by decide) "Base" (by decide)

/-! ## Claim C2 -/

/-- Claim C2: the graph built by `analyze_ccg` has no dangling edges — every
edge's `from` and `to` id is a key of the node map, for every input. -/
theorem C2_no_dangling_edges (root : FPath) (parse : FPath → Option (List PNode))
    (fs : List FPath) :
    ∀ e ∈ (analyze_ccg root parse fs).edges,
      e.fromId ∈ keys (analyze_ccg root parse fs).nodes ∧
      e.toId ∈ keys (analyze_ccg root parse fs).nodes :=
  fun e he => ccgState_ok root parse fs e he

/-- Claim C2, witness: the no-dangling-edges theorem applied to a concrete
`defines` edge of the `Model` scenario graph. -/
theorem C2_witness :
    "mod:m.py" ∈ keys (analyze_ccg ["r"] exModelParse [["r", "m.py"]]).nodes ∧
    "class:m.py::Model" ∈ keys (analyze_ccg ["r"] exModelParse [["r", "m.py"]]).nodes :=
  C2_no_dangling_edges ["r"] exModelParse [["r", "m.py"]]
    (Edge.mk "mod:m.py" "class:m.py::Model" "defines" "defines") (by decide)

/-! ## Claim C3 -/

theorem flatMapFilter_perm {fs₁ fs₂ : List FPath} (h : fs₁.Perm fs₂) :
    ∀ exts : List String,
      (exts.flatMap (fun ext => fs₁.filter (fun p => endsWithStr (p.getLastD "") ext))).Perm
      (exts.flatMap (fun ext => fs₂.filter (fun p => endsWithStr (p.getLastD "") ext)))
  | [] => List.Perm.refl _
  | ext :: r => by
    simp only [List.flatMap_cons]
    exact (h.filter _).append (flatMapFilter_perm h r)

theorem find_code_files_perm {fs₁ fs₂ : List FPath} (h : fs₁.Perm fs₂) (exts : List String) :
    find_code_files fs₁ exts = find_code_files fs₂ exts := by
  unfold find_code_files sortPaths
  simp only
  refine List.eq_of_perm_of_sorted ?_ (List.sorted_insertionSort fpLe _)
    (List.sorted_insertionSort fpLe _)
  refine ((List.perm_insertionSort fpLe _).trans ?_).trans
    (List.perm_insertionSort fpLe _).symm
  exact (flatMapFilter_perm h exts).dedup

/-- Claim C3: two runs of `analyze_ccg` over the same root and the same file
contents produce identical graphs — in particular identical node-id sets and
edge multisets — whatever order the filesystem enumerates the files in,
because the builder sorts the file list (lexicographically) before anything
else. -/
theorem C3_deterministic (root : FPath) (parse : FPath → Option (List PNode))
    (fs₁ fs₂ : List FPath) (h : fs₁.Perm fs₂) :
    analyze_ccg root parse fs₁ = analyze_ccg root parse fs₂ := by
  unfold analyze_ccg
  rw [find_code_files_perm h [".py"]]

/-- Claim C3, witness: two concrete enumeration orders of the same two files
yield the same graph. -/
theorem C3_witness :
    analyze_ccg ["r"] exBadParse [["r", "good.py"], ["r", "bad.py"]] =
    analyze_ccg ["r"] exBadParse [["r", "bad.py"], ["r", "good.py"]] :=
  C3_deterministic ["r"] exBadParse _ _ (by decide)

/-! ## Claim C4 -/

theorem findCallersAux_eq (ns : NodeMap) (tids : List String) :
    ∀ (es : List Edge) (acc : List (String × Option NodeInfo)),
      findCallersAux ns tids es acc =
        acc ++ (es.filter (fun e => decide (e.type = "calls" ∧ e.toId ∈ tids))).map
          (fun e => (e.fromId, lookupNode ns e.fromId))
  | [], acc => by simp [findCallersAux]
  | e :: r, acc => by
    rw [findCallersAux]
    by_cases hc : e.type = "calls" ∧ e.toId ∈ tids
    · rw [if_pos hc, findCallersAux_eq ns tids r]
      simp [List.filter_cons, hc]
    · rw [if_neg hc, findCallersAux_eq ns tids r]
      simp [List.filter_cons, hc]

theorem queryCallersAux_nodup (target : String) :
    ∀ (es : List BEdge) (out : List String), out.Nodup → (queryCallersAux target es out).Nodup
  | [], _, h => h
  | e :: r, out, h => by
    rw [queryCallersAux]
    by_cases h1 : e.type ≠ "call"
    · rw [if_pos h1]; exact queryCallersAux_nodup target r out h
    · rw [if_neg h1]
      by_cases h2 : (splitOnStr e.tgt ".").getLastD "" = target ∨ e.tgt = target
      · rw [if_pos h2]
        by_cases h3 : e.src ≠ "" ∧ e.src ∉ out
        · rw [if_pos h3]
          refine queryCallersAux_nodup target r _ ?_
          exact List.nodup_append.mpr ⟨h, List.nodup_singleton _, by simpa using h3.2⟩
        · rw [if_neg h3]; exact queryCallersAux_nodup target r out h
      · rw [if_neg h2]; exact queryCallersAux_nodup target r out h

theorem queryCallersAux_sound (target : String) :
    ∀ (es : List BEdge) (out : List String), ∀ s ∈ queryCallersAux target es out,
      s ∈ out ∨ ∃ e ∈ es, e.type = "call" ∧ e.src = s ∧
        ((splitOnStr e.tgt ".").getLastD "" = target ∨ e.tgt = target)
  | [], _, s, hs => Or.inl hs
  | e :: r, out, s, hs => by
    rw [queryCallersAux] at hs
    by_cases h1 : e.type ≠ "call"
    · rw [if_pos h1] at hs
      rcases queryCallersAux_sound target r out s hs with h | ⟨e', he', hp⟩
      · exact Or.inl h
      · exact Or.inr ⟨e', List.mem_cons_of_mem _ he', hp⟩
    · rw [if_neg h1] at hs
      simp only [ne_eq, not_not] at h1
      by_cases h2 : (splitOnStr e.tgt ".").getLastD "" = target ∨ e.tgt = target
      · rw [if_pos h2] at hs
        by_cases h3 : e.src ≠ "" ∧ e.src ∉ out
        · rw [if_pos h3] at hs
          rcases queryCallersAux_sound target r _ s hs with h | ⟨e', he', hp⟩
          · rcases List.mem_append.mp h with h | h
            · exact Or.inl h
            · exact Or.inr ⟨e, List.mem_cons_self _ _, h1, (List.mem_singleton.mp h).symm, h2⟩
          · exact Or.inr ⟨e', List.mem_cons_of_mem _ he', hp⟩
        · rw [if_neg h3] at hs
          rcases queryCallersAux_sound target r out s hs with h | ⟨e', he', hp⟩
          · exact Or.inl h
          · exact Or.inr ⟨e', List.mem_cons_of_mem _ he', hp⟩
      · rw [if_neg h2] at hs
        rcases queryCallersAux_sound target r out s hs with h | ⟨e', he', hp⟩
        · exact Or.inl h
        · exact Or.inr ⟨e', List.mem_cons_of_mem _ he', hp⟩

/-- Claim C4, counterexample: in the two-calls scenario, `find_callers`
returns the calling function once per matching `calls` edge, so its result
is not a duplicate-free sequence as the claim requires. -/
theorem C4_counterexample :
    ¬ ((find_callers exCallsGraph "foo").map Prod.fst).Nodup := by decide

/-- Claim C4 (amended): `query_callers` matches a call target by exact
qualname or by its trailing dotted segment and returns a duplicate-free
list of caller qualnames in first-occurrence edge order (not sorted by id);
`find_callers` returns one `(node_id, info)` entry per matching `calls`
edge, in edge-insertion order, neither deduplicated nor sorted. -/
theorem C4_query_callers :
    (∀ (g : BGraph) (t : String), (query_callers g t).Nodup) ∧
    (∀ (g : BGraph) (t : String), ∀ s ∈ query_callers g t,
      ∃ e ∈ g.edges, e.type = "call" ∧ e.src = s ∧
        ((splitOnStr e.tgt ".").getLastD "" = t ∨ e.tgt = t)) ∧
    (∀ (g : CCG) (t : String),
      find_callers g t =
        (g.edges.filter (fun e => decide (e.type = "calls" ∧ e.toId ∈ findTargetIds g t))).map
          (fun e => (e.fromId, lookupNode g.nodes e.fromId))) := by
  refine ⟨fun g t => ?_, fun g t s hs => ?_, fun g t => ?_⟩
  · exact queryCallersAux_nodup t g.edges [] List.nodup_nil
  · rcases queryCallersAux_sound t g.edges [] s hs with h | h
    · exact absurd h (List.not_mem_nil s)
    · exact h
  · exact findCallersAux_eq g.nodes (findTargetIds g t) g.edges []

/-- Claim C4, witness: the amended theorem applied to the two-calls scenario:
`query_callers` deduplicates, and the matching edge behind the caller exists. -/
theorem C4_witness :
    (query_callers exCallsBGraph "foo").Nodup ∧
    (∃ e ∈ exCallsBGraph.edges, e.type = "call" ∧ e.src = "m.caller" ∧
      ((splitOnStr e.tgt ".").getLastD "" = "foo" ∨ e.tgt = "foo")) :=
  ⟨C4_query_callers.1 exCallsBGraph "foo",
   C4_query_callers.2.1 exCallsBGraph "foo" "m.caller" (by decide)⟩

/-! ## Claim C5 -/

theorem ccgState_calls (root : FPath) (parse : FPath → Option (List PNode)) (fs : List FPath) :
    ∀ pv ∈ ccgVisitors root parse (find_code_files fs [".py"]), ∀ x ∈ pv.2.calls,
      ∃ c t, Edge.mk c t "calls" "calls" ∈ (ccgState root parse fs).2 ∧
        (t = "fn:unresolved::" ++ x.2 ∨ ∃ nd, (t, nd) ∈ (ccgState root parse fs).1 ∧
          (nd.name = some x.2 ∨ nd.qualname = some x.2)) := by
  intro pv hpv x hx
  unfold ccgState
  set vs := ccgVisitors root parse (find_code_files fs [".py"]) with hvs
  exact callStage_calls_complete vs
    (inheritStage vs (defineStage vs (moduleNodes vs []) []).1
      (defineStage vs (moduleNodes vs []) []).2).1
    (inheritStage vs (defineStage vs (moduleNodes vs []) []).1
      (defineStage vs (moduleNodes vs []) []).2).2 pv hpv x hx

theorem ccgState_insts (root : FPath) (parse : FPath → Option (List PNode)) (fs : List FPath) :
    ∀ pv ∈ ccgVisitors root parse (find_code_files fs [".py"]), ∀ x ∈ pv.2.instantiates,
      ∃ c t, Edge.mk c t "instantiates" "instantiates" ∈ (ccgState root parse fs).2 ∧
        (t = "class:unresolved::" ++ x.2 ∨ ∃ nd, (t, nd) ∈ (ccgState root parse fs).1 ∧
          (nd.name = some x.2 ∨ nd.qualname = some x.2)) := by
  intro pv hpv x hx
  unfold ccgState
  set vs := ccgVisitors root parse (find_code_files fs [".py"]) with hvs
  exact callStage_inst_complete vs
    (inheritStage vs (defineStage vs (moduleNodes vs []) []).1
      (defineStage vs (moduleNodes vs []) []).2).1
    (inheritStage vs (defineStage vs (moduleNodes vs []) []).1
      (defineStage vs (moduleNodes vs []) []).2).2 pv hpv x hx

theorem processCalls_append (module : String) (snap : String → List String) :
    ∀ (l₁ l₂ : List (String × String)) (ns : NodeMap) (es : List Edge),
      processCalls module snap (l₁ ++ l₂) ns es =
        processCalls module snap l₂ (processCalls module snap l₁ ns es).1
          (processCalls module snap l₁ ns es).2
  | [], _, _, _ => rfl
  | (site, callee) :: r, l₂, ns, es => by
    simp only [List.cons_append, processCalls]
    cases hs : snap callee with
    | nil => exact processCalls_append module snap r l₂ _ _
    | cons t ts => exact processCalls_append module snap r l₂ _ _

theorem processInsts_append (module : String) (snap : String → List String) :
    ∀ (l₁ l₂ : List (String × String)) (ns : NodeMap) (es : List Edge),
      processInsts module snap (l₁ ++ l₂) ns es =
        processInsts module snap l₂ (processInsts module snap l₁ ns es).1
          (processInsts module snap l₁ ns es).2
  | [], _, _, _ => rfl
  | (site, cls) :: r, l₂, ns, es => by
    simp only [List.cons_append, processInsts]
    cases hs : snap cls with
    | nil => exact processInsts_append module snap r l₂ _ _
    | cons t ts => exact processInsts_append module snap r l₂ _ _

theorem callStage_append : ∀ (a b : List (FPath × VState)) (ns : NodeMap) (es : List Edge),
    callStage (a ++ b) ns es = callStage b (callStage a ns es).1 (callStage a ns es).2
  | [], _, _, _ => rfl
  | (p, v) :: r, b, ns, es => by
    simp only [List.cons_append, callStage]
    exact callStage_append r b _ _

/-- The first entry of the remaining call list produces exactly the edge the
code builds for it: source `callerNid` at the current node map, target the
first snapshot candidate or the unresolved-function placeholder. -/
theorem processCalls_head_mem (module : String) (snap : String → List String)
    (site callee : String) (l₂ : List (String × String)) (ns : NodeMap) (es : List Edge) :
    Edge.mk (callerNid ns module site) (resolveCallT snap callee) "calls" "calls" ∈
      (processCalls module snap ((site, callee) :: l₂) ns es).2 := by
  simp only [processCalls, resolveCallT]
  cases hs : snap callee with
  | nil =>
    exact processCalls_ele module snap l₂ _ _ _
      (List.mem_append_right _ (List.mem_singleton.mpr rfl))
  | cons t ts =>
    exact processCalls_ele module snap l₂ _ _ _
      (List.mem_append_right _ (List.mem_singleton.mpr rfl))

theorem processInsts_head_mem (module : String) (snap : String → List String)
    (site cls : String) (l₂ : List (String × String)) (ns : NodeMap) (es : List Edge) :
    Edge.mk (callerNid ns module site) (resolveInstT snap cls) "instantiates" "instantiates" ∈
      (processInsts module snap ((site, cls) :: l₂) ns es).2 := by
  simp only [processInsts, resolveInstT]
  cases hs : snap cls with
  | nil =>
    exact processInsts_ele module snap l₂ _ _ _
      (List.mem_append_right _ (List.mem_singleton.mpr rfl))
  | cons t ts =>
    exact processInsts_ele module snap l₂ _ _ _
      (List.mem_append_right _ (List.mem_singleton.mpr rfl))

/-- Claim C5: a recorded call whose target name begins with an uppercase
letter is also recorded as an instantiation, and the built graph contains,
in addition to the `calls` edge of that call, an `instantiates` edge whose
source is exactly the call's origin — the `caller_nid` the code computes at
that point of the fourth pass (`fn:`/`class:` node of the site when
present, else the module node) — and whose target is exactly the resolved
candidate of the visitor's `name_to_node` snapshot, or the synthesized
`class:unresolved::` placeholder when no candidate matches; in the resolved
case the target is a node whose name or qualname equals the call target.
The visitor position (`vs₁`) and the call's position in the visitor's
`calls`/`instantiates` lists (`l₁`/`i₁`) pin the exact intermediate state
the code consults. -/
theorem C5_instantiates_heuristic (root : FPath) (parse : FPath → Option (List PNode))
    (fs : List FPath) (vs₁ vs₂ : List (FPath × VState)) (pv : FPath × VState)
    (hvs : ccgVisitors root parse (find_code_files fs [".py"]) = vs₁ ++ pv :: vs₂)
    (site name : String) (hup : headUpper name = true) :
    let stV := callStage vs₁ (ccgPre root parse fs).1 (ccgPre root parse fs).2
    let snap := nameToNode stV.1
    ((site, name) ∈ pv.2.calls → (site, name) ∈ pv.2.instantiates) ∧
    (∀ l₁ l₂, pv.2.calls = l₁ ++ (site, name) :: l₂ →
      Edge.mk (callerNid (processCalls pv.2.module snap l₁ stV.1 stV.2).1 pv.2.module site)
        (resolveCallT snap name) "calls" "calls" ∈ (analyze_ccg root parse fs).edges) ∧
    (∀ i₁ i₂, pv.2.instantiates = i₁ ++ (site, name) :: i₂ →
      Edge.mk
        (callerNid (processInsts pv.2.module snap i₁
            (processCalls pv.2.module snap pv.2.calls stV.1 stV.2).1
            (processCalls pv.2.module snap pv.2.calls stV.1 stV.2).2).1
          pv.2.module site)
        (resolveInstT snap name) "instantiates" "instantiates" ∈
          (analyze_ccg root parse fs).edges ∧
      (resolveInstT snap name = "class:unresolved::" ++ name ∨
       ∃ nd, (resolveInstT snap name, nd) ∈ (analyze_ccg root parse fs).nodes ∧
         (nd.name = some name ∨ nd.qualname = some name))) := by
  intro stV snap
  have hpv : pv ∈ ccgVisitors root parse (find_code_files fs [".py"]) := by
    rw [hvs]
    exact List.mem_append_right _ (List.mem_cons_self _ _)
  have hedges : (analyze_ccg root parse fs).edges =
      (callStage vs₂
        (processInsts pv.2.module snap pv.2.instantiates
          (processCalls pv.2.module snap pv.2.calls stV.1 stV.2).1
          (processCalls pv.2.module snap pv.2.calls stV.1 stV.2).2).1
        (processInsts pv.2.module snap pv.2.instantiates
          (processCalls pv.2.module snap pv.2.calls stV.1 stV.2).1
          (processCalls pv.2.module snap pv.2.calls stV.1 stV.2).2).2).2 := by
    show (ccgState root parse fs).2 = _
    have h1 : ccgState root parse fs =
        callStage (vs₁ ++ pv :: vs₂) (ccgPre root parse fs).1 (ccgPre root parse fs).2 := by
      unfold ccgState ccgPre
      rw [hvs]
    rw [h1, callStage_append vs₁ (pv :: vs₂) _ _]
    rfl
  have hnodes : (analyze_ccg root parse fs).nodes =
      (callStage vs₂
        (processInsts pv.2.module snap pv.2.instantiates
          (processCalls pv.2.module snap pv.2.calls stV.1 stV.2).1
          (processCalls pv.2.module snap pv.2.calls stV.1 stV.2).2).1
        (processInsts pv.2.module snap pv.2.instantiates
          (processCalls pv.2.module snap pv.2.calls stV.1 stV.2).1
          (processCalls pv.2.module snap pv.2.calls stV.1 stV.2).2).2).1 := by
    show (ccgState root parse fs).1 = _
    have h1 : ccgState root parse fs =
        callStage (vs₁ ++ pv :: vs₂) (ccgPre root parse fs).1 (ccgPre root parse fs).2 := by
      unfold ccgState ccgPre
      rw [hvs]
    rw [h1, callStage_append vs₁ (pv :: vs₂) _ _]
    rfl
  refine ⟨fun hc => (ccgVisitors_inv hpv).2 (site, name) hc hup, fun l₁ l₂ hsplit => ?_,
    fun i₁ i₂ hsplit => ?_⟩
  · rw [hedges]
    refine callStage_ele vs₂ _ _ _ (processInsts_ele _ _ _ _ _ _ ?_)
    rw [hsplit, processCalls_append pv.2.module snap l₁ ((site, name) :: l₂) stV.1 stV.2]
    exact processCalls_head_mem pv.2.module snap site name l₂ _ _
  · constructor
    · rw [hedges]
      refine callStage_ele vs₂ _ _ _ ?_
      rw [hsplit, processInsts_append pv.2.module snap i₁ ((site, name) :: i₂) _ _]
      exact processInsts_head_mem pv.2.module snap site name i₂ _ _
    · unfold resolveInstT
      cases hs : snap name with
      | nil => exact Or.inl rfl
      | cons t ts =>
        rcases nameToNode_sound (hs ▸ List.mem_cons_self t ts) with ⟨nd, hnd, hm⟩
        refine Or.inr ⟨nd, ?_, hm⟩
        rw [hnodes]
        exact callStage_nle vs₂ _ _ _ (processInsts_nle _ _ _ _ _ _
          (processCalls_nle _ _ _ _ _ _ hnd))

/-- Claim C5, witness: in the `Model` scenario, the theorem yields the
`instantiates` edge from exactly `fn:m.py::use_model` to exactly
`class:m.py::Model`, alongside the `calls` edge between the same nodes. -/
theorem C5_witness :
    Edge.mk "fn:m.py::use_model" "class:m.py::Model" "instantiates" "instantiates" ∈
      (analyze_ccg ["r"] exModelParse [["r", "m.py"]]).edges ∧
    Edge.mk "fn:m.py::use_model" "class:m.py::Model" "calls" "calls" ∈
      (analyze_ccg ["r"] exModelParse [["r", "m.py"]]).edges := by
  have h := C5_instantiates_heuristic ["r"] exModelParse [["r", "m.py"]] [] []
    (["r", "m.py"], runVisitor "m.py" [PNode.classDef "Model" [] [],
      PNode.funcDef "use_model" [PNode.exprStmt (PExpr.pcall (PExpr.pname "Model") [])]])
    (by decide) "m.py::use_model" "Model" (by decide)
  obtain ⟨-, hcalls, hinst⟩ := h
  exact ⟨(hinst [] [] (by decide)).1, hcalls [] [] (by decide)⟩

/-! ## Claim C6 -/

theorem leadsWith_append : ∀ (root rest : FPath), leadsWith root (root ++ rest) = true
  | [], _ => rfl
  | a :: as, rest => by
    simp only [List.cons_append, leadsWith, beq_self_eq_true, Bool.true_and]
    exact leadsWith_append as rest

/-- Claim C6, counterexample: for a file `pkg/mod.py` under the root,
`code_analyzer._module_name_from_path` yields `pkg/mod.py` — the `.py`
suffix is not stripped, unlike the claimed `pkg/mod`; and for a file outside
the root it yields the base name with its extension (`a.py`, not `a`). -/
theorem C6_counterexample :
    _module_name_from_path ["r"] ["r", "pkg", "mod.py"] = "pkg/mod.py" ∧
    "pkg/mod.py" ≠ "pkg/mod" ∧
    _module_name_from_path ["r"] ["x", "a.py"] = "a.py" ∧
    "a.py" ≠ "a" :=
  ⟨by decide, by decide, by decide, by decide⟩

/-- Claim C6 (amended): `code_analyzer` derives the module identifier as the
root-relative path with `/` separators and the source-file suffix KEPT,
falling back to the base name WITH its extension for a file outside the
root; `ccg_builder` derives it as the relative path joined with dots and the
suffix stripped, falling back to the stem, as the claim describes. -/
theorem C6_module_identifier :
    (∀ (root rest : FPath), _module_name_from_path root (root ++ rest) =
      String.intercalate "/" rest) ∧
    (∀ (root q : FPath), leadsWith root q = false →
      _module_name_from_path root q = q.getLastD "") ∧
    (∀ (root rest : FPath), bModuleName root (root ++ rest) =
      String.intercalate "." (stripLastSuffix rest)) ∧
    (∀ (root q : FPath), leadsWith root q = false →
      bModuleName root q = withSuffixEmpty (q.getLastD "")) := by
  refine ⟨fun root rest => ?_, fun root q h => ?_, fun root rest => ?_, fun root q h => ?_⟩
  · unfold _module_name_from_path
    rw [if_pos (leadsWith_append root rest), List.drop_left]
  · unfold _module_name_from_path
    rw [if_neg (by simp [h])]
  · unfold bModuleName
    rw [if_pos (leadsWith_append root rest), List.drop_left]
  · unfold bModuleName
    rw [if_neg (by simp [h])]

/-- Claim C6, witness: the amended theorem applied to a concrete file under
the root and a concrete file outside it. -/
theorem C6_witness :
    _module_name_from_path ["r"] (["r"] ++ ["pkg", "mod.py"]) =
      String.intercalate "/" ["pkg", "mod.py"] ∧
    _module_name_from_path ["r"] ["x", "a.py"] = (["x", "a.py"] : FPath).getLastD "" ∧
    bModuleName ["r"] (["r"] ++ ["pkg", "mod.py"]) =
      String.intercalate "." (stripLastSuffix ["pkg", "mod.py"]) ∧
    bModuleName ["r"] ["x", "a.py"] = withSuffixEmpty ((["x", "a.py"] : FPath).getLastD "") :=
  ⟨C6_module_identifier.1 ["r"] ["pkg", "mod.py"],
   C6_module_identifier.2.1 ["r"] ["x", "a.py"] (by decide),
   C6_module_identifier.2.2.1 ["r"] ["pkg", "mod.py"],
   C6_module_identifier.2.2.2 ["r"] ["x", "a.py"] (by decide)⟩

/-! ## Claim C7 -/

theorem filterMap_filter_isSome {α β : Type} (f : α → Option β) :
    ∀ l : List α, l.filterMap f = (l.filter (fun x => (f x).isSome)).filterMap f
  | [] => rfl
  | x :: r => by
    rw [List.filterMap_cons, List.filter_cons]
    cases hf : f x with
    | none =>
      simp only [hf, Option.isSome_none, Bool.false_eq_true, if_false]
      exact filterMap_filter_isSome f r
    | some b =>
      simp only [hf, Option.isSome_some, if_true, List.filterMap_cons]
      rw [filterMap_filter_isSome f r]

theorem find_code_files_nodup (fs : List FPath) (exts : List String) :
    (find_code_files fs exts).Nodup := by
  unfold find_code_files sortPaths
  exact ((List.perm_insertionSort fpLe _).nodup_iff).mpr (List.nodup_dedup _)

theorem find_code_files_sorted (fs : List FPath) (exts : List String) :
    List.Sorted fpLe (find_code_files fs exts) := by
  unfold find_code_files sortPaths
  exact List.sorted_insertionSort fpLe _

theorem mem_find_code_files {fs : List FPath} {exts : List String} {x : FPath} :
    x ∈ find_code_files fs exts ↔
      ∃ ext ∈ exts, x ∈ fs ∧ endsWithStr (x.getLastD "") ext = true := by
  unfold find_code_files sortPaths
  rw [(List.perm_insertionSort fpLe _).mem_iff, List.mem_dedup, List.mem_flatMap]
  constructor
  · rintro ⟨ext, hext, hx⟩
    rcases List.mem_filter.mp hx with ⟨hxf, hend⟩
    exact ⟨ext, hext, hxf, hend⟩
  · rintro ⟨ext, hext, hxf, hend⟩
    exact ⟨ext, hext, List.mem_filter.mpr ⟨hxf, hend⟩⟩

theorem find_code_files_filter (fs : List FPath) (exts : List String) (q : FPath → Bool) :
    find_code_files (fs.filter q) exts = (find_code_files fs exts).filter q := by
  refine List.eq_of_perm_of_sorted ?_ (find_code_files_sorted _ exts)
    ((find_code_files_sorted fs exts).filter q)
  refine (List.perm_ext_iff_of_nodup (find_code_files_nodup _ exts)
    ((find_code_files_nodup fs exts).filter q)).mpr (fun a => ?_)
  rw [List.mem_filter, mem_find_code_files, mem_find_code_files]
  constructor
  · rintro ⟨ext, hext, haf, hend⟩
    rcases List.mem_filter.mp haf with ⟨ha, hq⟩
    exact ⟨⟨ext, hext, ha, hend⟩, hq⟩
  · rintro ⟨⟨ext, hext, ha, hend⟩, hq⟩
    exact ⟨ext, hext, List.mem_filter.mpr ⟨ha, hq⟩, hend⟩

theorem ccgVisitors_drop_unparsable (root : FPath) (parse : FPath → Option (List PNode))
    (fs : List FPath) :
    ccgVisitors root parse (find_code_files (fs.filter (fun p => (parse p).isSome)) [".py"]) =
    ccgVisitors root parse (find_code_files fs [".py"]) := by
  unfold ccgVisitors
  rw [find_code_files_filter fs [".py"] (fun p => (parse p).isSome)]
  have hpred : (fun p => (parse p).isSome) = (fun p =>
      (Option.map (fun tree => (p, runVisitor (_module_name_from_path root p) tree))
        (parse p)).isSome) := by
    funext p
    simp [Option.isSome_map]
  rw [hpred, ← filterMap_filter_isSome]

/-- Claim C7: a file that fails to read or parse contributes nothing and
never aborts the run: the symbol extractor returns the empty sequence for
it, and the graph built by `analyze_ccg` has exactly the nodes and edges of
the run over the parsable files alone (so all nodes and edges of the
remaining valid files are present, and the bad file contributes none). -/
theorem C7_parse_failures (root : FPath) (parse : FPath → Option (List PNode))
    (fs : List FPath) :
    (∀ p, parse p = none → extract_top_level_defs_py parse p = []) ∧
    (analyze_ccg root parse fs).nodes =
      (analyze_ccg root parse (fs.filter (fun p => (parse p).isSome))).nodes ∧
    (analyze_ccg root parse fs).edges =
      (analyze_ccg root parse (fs.filter (fun p => (parse p).isSome))).edges := by
  refine ⟨fun p hp => ?_, ?_, ?_⟩
  · unfold extract_top_level_defs_py
    rw [hp]
    split <;> rfl
  · show (ccgState root parse fs).1 = (ccgState root parse _).1
    unfold ccgState
    rw [ccgVisitors_drop_unparsable root parse fs]
  · show (ccgState root parse fs).2 = (ccgState root parse _).2
    unfold ccgState
    rw [ccgVisitors_drop_unparsable root parse fs]

/-- Claim C7, witness: with `good.py` parsable and `bad.py` unparsable, the
extractor returns `[]` on the bad file and the graph equals the graph of the
good file alone. -/
theorem C7_witness :
    extract_top_level_defs_py exBadParse ["r", "bad.py"] = [] ∧
    (analyze_ccg ["r"] exBadParse [["r", "good.py"], ["r", "bad.py"]]).nodes =
      (analyze_ccg ["r"] exBadParse
        ([["r", "good.py"], ["r", "bad.py"]].filter
          (fun p => (exBadParse p).isSome))).nodes :=
  ⟨(C7_parse_failures ["r"] exBadParse [["r", "good.py"], ["r", "bad.py"]]).1
      ["r", "bad.py"] rfl,
   (C7_parse_failures ["r"] exBadParse [["r", "good.py"], ["r", "bad.py"]]).2.1⟩

/-! ## Claim C8 -/

/-- Claim C8, counterexample: `find_code_files` (the File Collector of
`code_analyzer`) applies no directory exclusion: a file under a `.git`
directory is returned by default. -/
theorem C8_counterexample :
    [".git", "a.py"] ∈ find_code_files [[".git", "a.py"]] [".py"] ∧
    ".git" ∈ ([".git", "a.py"] : FPath) ∧ ".git" ∈ IGNORE_DIRS :=
  ⟨by decide, by decide, by decide⟩

/-- Claim C8 (amended): only `ccg_builder._iter_py_files` excludes the noise
directories (`env`, `.venv`, `.git`, `tmp_clones`, `venv`, `__pycache__`)
anywhere in the path; `code_analyzer.find_code_files` applies no directory
exclusion at all — every file matching an extension is returned wherever it
lies. -/
theorem C8_noise_dirs :
    (∀ (files : List FPath), ∀ p ∈ _iter_py_files files, ∀ part ∈ p, part ∉ IGNORE_DIRS) ∧
    (∀ (fs : List FPath) (exts : List String) (p : FPath) (ext : String),
      ext ∈ exts → p ∈ fs → endsWithStr (p.getLastD "") ext = true →
      p ∈ find_code_files fs exts) := by
  constructor
  · intro files p hp part hpart hmem
    have hc := (List.mem_filter.mp hp).2
    simp only [Bool.and_eq_true] at hc
    obtain ⟨_, hno⟩ := hc
    rw [Bool.not_eq_true'] at hno
    have hfalse := List.any_eq_false.mp hno part hpart
    exact hfalse (List.elem_eq_true_of_mem hmem)
  · intro fs exts p ext hext hp hend
    exact mem_find_code_files.mpr ⟨ext, hext, hp, hend⟩

/-- Claim C8, witness: the amended theorem applied to a concrete clean file
and to the `.git` file the collector fails to exclude. -/
theorem C8_witness :
    ("r" ∉ IGNORE_DIRS) ∧ [".git", "a.py"] ∈ find_code_files [[".git", "a.py"]] [".py"] :=
  ⟨C8_noise_dirs.1 [["r", "a.py"]] ["r", "a.py"] (by decide) "r" (by decide),
   C8_noise_dirs.2 [[".git", "a.py"]] [".py"] [".git", "a.py"] ".py"
     (by decide) (by decide) (by decide)⟩

/-! ## Claim C9 -/

/-- Claim C9: `find_code_files` returns a lexicographically sorted,
duplicate-free sequence of (resolved, absolute) paths, and an empty
filesystem enumeration — which is what `rglob` yields for a non-existing
root — produces the empty sequence rather than an error. -/
theorem C9_collector_output (fs : List FPath) (exts : List String) :
    List.Sorted fpLe (find_code_files fs exts) ∧
    (find_code_files fs exts).Nodup ∧
    find_code_files [] exts = [] := by
  refine ⟨find_code_files_sorted fs exts, find_code_files_nodup fs exts, ?_⟩
  unfold find_code_files sortPaths
  have h : ∀ (es : List String), (es.flatMap (fun ext =>
      ([] : List FPath).filter (fun p => endsWithStr (p.getLastD "") ext))) = [] := by
    intro es
    induction es with
    | nil => rfl
    | cons e r ih => rw [List.flatMap_cons, List.filter_nil, List.nil_append, ih]
  rw [h exts]
  rfl

/-! ## Claim C10 -/

theorem ccgState_fn_keys (root : FPath) (parse : FPath → Option (List PNode)) (fs : List FPath) :
    ∀ pv ∈ ccgVisitors root parse (find_code_files fs [".py"]), ∀ q ∈ pv.2.funcs,
      ("fn:" ++ q) ∈ keys (ccgState root parse fs).1 := by
  intro pv hpv q hq
  unfold ccgState
  set vs := ccgVisitors root parse (find_code_files fs [".py"]) with hvs
  refine keys_mono (callStage_nle vs _ _) (keys_mono (inheritStage_nle vs _ _) ?_)
  exact defineStage_fn_keys vs (moduleNodes vs []) [] pv hpv q hq

/-- Claim C10: the symbol extractor skips a top-level `async def` (an
`ast.AsyncFunctionDef` is not an `ast.FunctionDef`), while `_CCGVisitor`
treats it exactly like a plain `def` — its handler is the `funcDef` handler
— so the qualified name lands in `funcs` and the graph gets an `fn:` node
for it: the two components disagree on top-level async functions. -/
theorem C10_async_disagreement (module name : String) (body rest : List PNode) :
    extractDefs (PNode.asyncFuncDef name body :: rest) = extractDefs rest ∧
    (∀ s, visitNode (PNode.asyncFuncDef name body) s = visitNode (PNode.funcDef name body) s) ∧
    (module ++ "::" ++ name) ∈ (runVisitor module (PNode.asyncFuncDef name body :: rest)).funcs ∧
    (∀ (root : FPath) (parse : FPath → Option (List PNode)) (fs : List FPath),
      ∀ pv ∈ ccgVisitors root parse (find_code_files fs [".py"]), ∀ q ∈ pv.2.funcs,
        ("fn:" ++ q) ∈ keys (analyze_ccg root parse fs).nodes) := by
  refine ⟨rfl, fun s => rfl, ?_, ?_⟩
  · show (module ++ "::" ++ name) ∈
      (visitNodes rest (visitNode (PNode.asyncFuncDef name body) (initState module))).funcs
    refine (visitNodes_le rest _).funcs _ ?_
    show (module ++ "::" ++ name) ∈
      (visitNodes body { initState module with
        funcs := addSet (initState module).funcs (module ++ "::" ++ name),
        current_function := some (module ++ "::" ++ name) }).funcs
    exact (visitNodes_le body _).funcs _
      (mem_addSet_self (initState module).funcs (module ++ "::" ++ name))
  · intro root parse fs pv hpv q hq
    exact ccgState_fn_keys root parse fs pv hpv q hq

/-- Claim C10, witness: the async scenario — `fetch` is absent from the
extractor output but present as a function node in the graph. -/
theorem C10_witness :
    ("a.py" ++ "::" ++ "fetch") ∈ (runVisitor "a.py" (PNode.asyncFuncDef "fetch" [] ::
      [PNode.funcDef "plain" []])).funcs ∧
    ("fn:" ++ "a.py::fetch") ∈
      keys (analyze_ccg ["r"] exAsyncParse [["r", "a.py"]]).nodes :=
  ⟨(C10_async_disagreement "a.py" "fetch" [] [PNode.funcDef "plain" []]).2.2.1,
   (C10_async_disagreement "a.py" "fetch" [] [PNode.funcDef "plain" []]).2.2.2
     ["r"] exAsyncParse [["r", "a.py"]]
     (["r", "a.py"], runVisitor "a.py" exAsyncTree) (by decide) "a.py::fetch" (by decide)⟩
